import Mathlib

set_option maxHeartbeats 1000000
set_option maxRecDepth 8000

/-!
Verification development for the persistence and export engine of the
`prod-tracker` repository (`src/main.cpp`).

Modelling conventions:
* C++ `std::string` is modelled as `List Char` (abbreviated `Str`);
  file contents are a single `Str` and `std::getline` is modelled by
  splitting on `'\n'`.
* `time_t` is modelled as `Int` (seconds since the Unix epoch).
* The libc calendar functions (`localtime`, `mktime`, `strftime`,
  `sscanf`, `std::stoi`) are modelled executably below.  The local time
  zone is modelled as UTC (fixed zero offset, no DST), and `localtime`
  on negative `time_t` values is clamped to the epoch; every theorem
  that depends on calendar arithmetic restricts timestamps to
  `0 ≤ t < 253402300800` (years 1970–9999), where the model agrees with
  a POSIX libc running with `TZ=UTC`.
* Disk I/O is modelled by an explicit association list from paths to
  file contents, with `open`/`write` always succeeding (the claims
  under verification are about the success path of the I/O layer).
-/

namespace ProdTracker

abbrev Str := List Char

def str (s : String) : Str := s.data

/-- Characters `'0'..'9'`. -/
def isDigitChar (c : Char) : Bool := '0' ≤ c && c ≤ '9'

/-- The two characters stripped by `find_first_not_of(" \t")` in `load_tasks`. -/
def isSpaceTab (c : Char) : Bool := c == ' ' || c == '\t'

/-- C `isspace` on the default locale. -/
def cIsspace (c : Char) : Bool :=
  c == ' ' || c == '\t' || c == '\n' || c == '\x0B' || c == '\x0C' || c == '\r'

def digitChar (d : Nat) : Char := Char.ofNat ('0'.toNat + d)

/-- Little-endian decimal digits of `n`, with explicit fuel (`n` itself
is always enough fuel since `n / 10 < n` for `n ≠ 0`). -/
def revDigitsFuel : Nat → Nat → List Nat
  | 0, _ => []
  | f + 1, n => if n = 0 then [] else n % 10 :: revDigitsFuel f (n / 10)

/-- Big-endian decimal digit characters of a positive `n` (empty for `0`). -/
def natDigs (n : Nat) : Str := ((revDigitsFuel n n).map digitChar).reverse

/-- Decimal rendering of `n`, as produced by `operator<<` / `strftime %Y`. -/
def natChars (n : Nat) : Str := if n = 0 then ['0'] else natDigs n

/-- Decimal rendering of an `int`, as produced by `operator<<`. -/
def intChars (i : Int) : Str :=
  if i < 0 then '-' :: natChars (-i).toNat else natChars i.toNat

/-- Numeric value of a big-endian string of decimal digit characters. -/
def digitsVal (ds : Str) : Nat :=
  ds.foldl (fun acc c => acc * 10 + (c.toNat - '0'.toNat)) 0

/-- `pat.isPrefixOf cs` for `List Char`, written out so that all lemmas
about it are proved here. -/
def isPrefixList : Str → Str → Bool
  | [], _ => true
  | _p :: _, [] => false
  | p :: ps, c :: cs => p == c && isPrefixList ps cs

/-- `std::string::find(c)`: index of the first occurrence of a character. -/
def findCharIdx (c : Char) : Str → Option Nat
  | [] => none
  | a :: tl => if a == c then some 0 else (findCharIdx c tl).map (· + 1)

/-- `std::string::find(pat)`: index of the first occurrence of a substring. -/
def findSubstr (pat : Str) : Str → Option Nat
  | [] => if pat.isEmpty then some 0 else none
  | c :: tl =>
    if isPrefixList pat (c :: tl) then some 0
    else (findSubstr pat tl).map (· + 1)

/-- `std::string::find(pat, start)`. -/
def findSubstrFrom (pat cs : Str) (start : Nat) : Option Nat :=
  (findSubstr pat (cs.drop start)).map (· + start)

/-- `std::string::rfind(pat)`: index of the last occurrence of a substring. -/
def rfindSubstr (pat : Str) : Str → Option Nat
  | [] => if pat.isEmpty then some 0 else none
  | c :: tl =>
    match rfindSubstr pat tl with
    | some i => some (i + 1)
    | none => if isPrefixList pat (c :: tl) then some 0 else none

def hasSubstr (pat cs : Str) : Bool := (findSubstr pat cs).isSome

/-- `std::string::find(c, start)`. -/
def findCharFrom (c : Char) (cs : Str) (start : Nat) : Option Nat :=
  (findCharIdx c (cs.drop start)).map (· + start)

/-- The digit-prefix of a string, limited to a maximum field width
(`sscanf` `%4d`-style), together with the remaining input. -/
def takeDigits : Nat → Str → Str × Str
  | _, [] => ([], [])
  | 0, cs => ([], cs)
  | w + 1, c :: cs =>
    if isDigitChar c then
      let p := takeDigits w cs
      (c :: p.1, p.2)
    else ([], c :: cs)

/-- The unlimited digit-prefix of a string (`std::stoi`-style). -/
def takeDigitsAll : Str → Str × Str
  | [] => ([], [])
  | c :: cs =>
    if isDigitChar c then
      let p := takeDigitsAll cs
      (c :: p.1, p.2)
    else ([], c :: cs)

def expectChar (c : Char) : Str → Option Str
  | [] => none
  | a :: tl => if a == c then some tl else none

/-- One `%<w>d` conversion of `sscanf` (modelled for the non-negative
fields of the timestamp format: leading whitespace is skipped, then at
least one and at most `w` digits are read; sign handling is omitted
because the strings this model is applied to never carry signs). -/
def scanNat (w : Nat) (cs : Str) : Option (Nat × Str) :=
  let cs1 := cs.dropWhile cIsspace
  let p := takeDigits w cs1
  if p.1.isEmpty then none else some (digitsVal p.1, p.2)

/-- `sscanf(s, "%4d-%2d-%2d %2d:%2d:%2d", ...)` from `parse_timestamp`.
The literal `' '` of the format string is absorbed by the whitespace
skip of the following `%2d`. -/
def sscanf_timestamp (cs : Str) : Option (Nat × Nat × Nat × Nat × Nat × Nat) := do
  let (y, r1) ← scanNat 4 cs
  let r2 ← expectChar '-' r1
  let (mo, r3) ← scanNat 2 r2
  let r4 ← expectChar '-' r3
  let (d, r5) ← scanNat 2 r4
  let (hh, r6) ← scanNat 2 r5
  let r7 ← expectChar ':' r6
  let (mi, r8) ← scanNat 2 r7
  let r9 ← expectChar ':' r8
  let (ss, _) ← scanNat 2 r9
  pure (y, mo, d, hh, mi, ss)

/-- `std::stoi`: skip whitespace, optional sign, at least one digit;
`none` models the thrown exception (caught by `load_tasks`). -/
def stoiModel (cs : Str) : Option Int :=
  match cs.dropWhile cIsspace with
  | [] => none
  | c :: r =>
    if c = '-' then
      if (takeDigitsAll r).1.isEmpty then none
      else some (-(digitsVal (takeDigitsAll r).1 : Int))
    else if c = '+' then
      if (takeDigitsAll r).1.isEmpty then none
      else some ((digitsVal (takeDigitsAll r).1 : Int))
    else
      if (takeDigitsAll (c :: r)).1.isEmpty then none
      else some ((digitsVal (takeDigitsAll (c :: r)).1 : Int))

/-- `pos = s.find_first_not_of(" \t"); if (pos != npos) s = s.substr(pos);`
Note that a string consisting solely of blanks is left unchanged. -/
def stripLeadCpp (cs : Str) : Str :=
  if cs.all isSpaceTab then cs else cs.dropWhile isSpaceTab

/-- `while (!s.empty() && isspace(s.back())) s.pop_back();` -/
def dropTrailingWs (cs : Str) : Str := (cs.reverse.dropWhile cIsspace).reverse

/-- Split off the first line of a file: the characters before the first
`'\n'`, and the rest after it (`none` when there is no newline). -/
def splitFirstLine : Str → Str × Option Str
  | [] => ([], none)
  | c :: tl =>
    if c = '\n' then ([], some tl)
    else (c :: (splitFirstLine tl).1, (splitFirstLine tl).2)

/-- `std::getline` loop: the lines of a file's content.  The fuel is the
length of the content; each step consumes at least the newline. -/
def getLinesFuel : Nat → Str → List Str
  | _, [] => []
  | 0, cs => [cs]
  | f + 1, cs =>
    match splitFirstLine cs with
    | (l, none) => [l]
    | (l, some rest) => l :: getLinesFuel f rest

def getLines (cs : Str) : List Str := getLinesFuel cs.length cs

/- ------------------------------------------------------------------
   Calendar model (libc `localtime` / `mktime` with `TZ=UTC`).
   ------------------------------------------------------------------ -/

def isLeap (y : Nat) : Bool := (y % 4 == 0 && y % 100 != 0) || (y % 400 == 0)

def daysInYear (y : Nat) : Nat := if isLeap y then 366 else 365

def monthLengths (y : Nat) : List Nat :=
  [31, if isLeap y then 29 else 28, 31, 30, 31, 30, 31, 31, 30, 31, 30, 31]

/-- Split a day count into (year, day-of-year), starting at year `y`.
Fuel-based so that the kernel can evaluate it; `n + 1` is always enough
fuel since each step consumes at least 365 days. -/
def yearSplitFuel : Nat → Nat → Nat → Nat × Nat
  | 0, y, n => (y, n)
  | f + 1, y, n =>
    if n < daysInYear y then (y, n) else yearSplitFuel f (y + 1) (n - daysInYear y)

def yearSplit (y n : Nat) : Nat × Nat := yearSplitFuel (n + 1) y n

/-- Split a day-of-year into (month index offset, day-of-month offset). -/
def monthSplit : List Nat → Nat → Nat → Nat × Nat
  | [], m, n => (m, n)
  | ml :: rest, m, n =>
    if n < ml then (m, n) else monthSplit rest (m + 1) (n - ml)

/-- Days in the `k` consecutive years starting at year `y0`. -/
def yearDays (y0 : Nat) : Nat → Nat
  | 0 => 0
  | k + 1 => yearDays y0 k + daysInYear (y0 + k)

/-- The fields of `struct tm` that this program reads, in human form:
`year` is the full year (`tm_year + 1900`), `mon` is 1-based
(`tm_mon + 1`, as printed by `%m`), `mday` is 1-based. -/
structure CivilTime where
  year : Nat
  mon : Nat
  mday : Nat
  hour : Nat
  minute : Nat
  sec : Nat
deriving DecidableEq, Repr

/-- `localtime` under `TZ=UTC`; negative `time_t` clamps to the epoch
(the program only ever passes non-negative times to it on the paths
verified here). -/
def localtimeModel (t : Int) : CivilTime :=
  let n := t.toNat
  let days := n / 86400
  let rem := n % 86400
  let ys := yearSplit 1970 days
  let ms := monthSplit (monthLengths ys.1) 0 ys.2
  ⟨ys.1, ms.1 + 1, ms.2 + 1, rem / 3600, rem % 3600 / 60, rem % 60⟩

def monthDaysBefore (y m1 : Nat) : Nat := ((monthLengths y).take (m1 - 1)).sum

/-- `mktime` under `TZ=UTC` on the in-range fields produced by
`localtimeModel` / parsed back from its formatted output. -/
def mktimeModel (y mo d hh mi ss : Nat) : Int :=
  ((yearDays 1970 (y - 1970) + monthDaysBefore y mo + (d - 1)) * 86400
    + hh * 3600 + mi * 60 + ss : Nat)

/-- `is_same_local_day`: compares `tm_year`, `tm_mon`, `tm_mday`. -/
def is_same_local_day (a b : Int) : Bool :=
  let ta := localtimeModel a
  let tb := localtimeModel b
  ta.year == tb.year && ta.mon == tb.mon && ta.mday == tb.mday

/-- Two-digit zero-padded field (strftime `%m`/`%d`/`%H`/`%M`/`%S`). -/
def pad2 (n : Nat) : Str := if n < 10 then '0' :: natChars n else natChars n

/-- `format_time_local`: `strftime "%Y-%m-%d %H:%M:%S"` of local time;
`(n/a)` for the zero sentinel. -/
def format_time_local (t : Int) : Str :=
  if t == 0 then str "(n/a)"
  else
    let c := localtimeModel t
    natChars c.year ++ ['-'] ++ pad2 c.mon ++ ['-'] ++ pad2 c.mday ++ [' ']
      ++ pad2 c.hour ++ [':'] ++ pad2 c.minute ++ [':'] ++ pad2 c.sec

/-- `format_iso_time`: `strftime "%Y-%m-%dT%H:%M:%SZ"` of UTC time;
empty for the zero sentinel. -/
def format_iso_time (t : Int) : Str :=
  if t == 0 then []
  else
    let c := localtimeModel t
    natChars c.year ++ ['-'] ++ pad2 c.mon ++ ['-'] ++ pad2 c.mday ++ ['T']
      ++ pad2 c.hour ++ [':'] ++ pad2 c.minute ++ [':'] ++ pad2 c.sec ++ ['Z']

/-- The `strftime "%Y%m%d_%H%M%S"` stamp used in export filenames. -/
def compact_timestamp (t : Int) : Str :=
  let c := localtimeModel t
  natChars c.year ++ pad2 c.mon ++ pad2 c.mday ++ ['_']
    ++ pad2 c.hour ++ pad2 c.minute ++ pad2 c.sec

/-- `parse_timestamp`: `sscanf` the six fields and `mktime` them; on
failure fall back to `time(nullptr)` (the `now` argument). -/
def parse_timestamp (now : Int) (s : Str) : Int :=
  match sscanf_timestamp s with
  | some (y, mo, d, hh, mi, ss) => mktimeModel y mo d hh mi ss
  | none => now

/- ------------------------------------------------------------------
   Data model and file-system model.
   ------------------------------------------------------------------ -/

structure DailyLog where
  ts : Int
  type : Str
  text : Str
deriving DecidableEq, Repr

structure BreakEntry where
  type : Str
  start : Int
  /-- `time_t end` of the C++ struct (`end` is reserved in Lean);
  `0` is the open-interval sentinel. -/
  endTime : Int
deriving DecidableEq, Repr

structure Task where
  name : Str
  parent : Int
  done : Bool
deriving DecidableEq, Repr

/-- The on-disk state: an association list from paths to contents where
the first binding wins, so prepending models an overwrite. -/
abbrev Files := List (Str × Str)

def lookupFile (fs : Files) (p : Str) : Option Str :=
  (fs.find? (fun e => e.1 == p)).map (·.2)

/-- `std::ofstream f(path)` (truncating) followed by writing `c`. -/
def writeFileTrunc (fs : Files) (p c : Str) : Files := (p, c) :: fs

/-- `append_line_to_file`: open in append mode, write `line << "\n"`. -/
def appendLineToFile (fs : Files) (p line : Str) : Files :=
  ((p, (lookupFile fs p).getD [] ++ line ++ ['\n'])) :: fs

/-- `user_data_dir`: `$HOME/.productivity_tracker`, with `$HOME`
modelled as `~` and directory creation modelled as succeeding. -/
def user_data_dir : Str := str "~/.productivity_tracker"

def path_in_data (filename : Str) : Str := user_data_dir ++ ['/'] ++ filename

def daily_logs_path : Str := path_in_data (str "daily_logs.txt")

def tasks_path : Str := path_in_data (str "tasks.txt")

/-- `human_log_line(type, text, ts)`; a zero `ts` falls back to the
current time (`now`). -/
def human_log_line (now : Int) (type text : Str) (ts : Int) : Str :=
  let t := if ts != 0 then ts else now
  format_time_local t ++ str " - " ++ type ++ str " - " ++ text

/-- `export_text_to_file(prefix, content)`: write `content << "\n"` to
a fresh timestamped file and return its path (I/O success modelled). -/
def export_text_to_file (now : Int) (pre content : Str) (fs : Files) : Str × Files :=
  let filename := pre ++ ['_'] ++ compact_timestamp now ++ str ".txt"
  let path := path_in_data filename
  (path, writeFileTrunc fs path (content ++ ['\n']))

/- ------------------------------------------------------------------
   The application state and the store operations.
   ------------------------------------------------------------------ -/

structure AppState where
  dailyLogs : List DailyLog
  breaks : List BreakEntry
  tasks : List Task
  files : Files
deriving DecidableEq, Repr

def initState : AppState := ⟨[], [], [], []⟩

/-- `append_daily_log(type, text)` at current time `now`. -/
def append_daily_log (now : Int) (type text : Str) (s : AppState) : AppState :=
  { s with
    dailyLogs := s.dailyLogs ++ [⟨now, type, text⟩],
    files := appendLineToFile s.files daily_logs_path (human_log_line now type text now) }

/-- One line of `save_tasks` for task `t` at index `i`. -/
def saveTaskLine (i : Nat) (t : Task) : Str :=
  natChars i ++ str ": [" ++ (if t.done then ['x'] else [' ']) ++ str "] " ++ t.name
    ++ (if t.parent != -1 then str " (parent=" ++ intChars t.parent ++ [')'] else [])

/-- The lines of `save_tasks` (`for (size_t i = 0; ...)`), starting at
index `i`. -/
def saveTasksLines (i : Nat) : List Task → List Str
  | [] => []
  | t :: ts => saveTaskLine i t :: saveTasksLines (i + 1) ts

/-- The full content `save_tasks` writes to `tasks.txt`. -/
def save_tasks_content (tasks : List Task) : Str :=
  ((saveTasksLines 0 tasks).map (· ++ ['\n'])).flatten

def save_tasks (s : AppState) : AppState :=
  { s with files := writeFileTrunc s.files tasks_path (save_tasks_content s.tasks) }

/-- The `[?]` done-marker handling of `load_tasks`. -/
def parseTaskBracket (rest1 : Str) : Bool × Str :=
  match rest1 with
  | c0 :: c1 :: c2 :: _ =>
    if c0 == '[' && c2 == ']' then
      let d := c1 == 'x' || c1 == 'X'
      match findCharIdx ']' rest1 with
      | some br => (d, stripLeadCpp (rest1.drop (br + 1)))
      | none => (d, stripLeadCpp rest1)
    else (false, rest1)
  | _ => (false, rest1)

/-- The `(parent=N)` suffix handling of `load_tasks`. -/
def parseTaskParent (rest2 : Str) : Int × Str :=
  match rfindSubstr (str "(parent=") rest2 with
  | some ppos =>
    match findCharFrom ')' rest2 ppos with
    | some endp =>
      let num := (rest2.drop (ppos + 8)).take (endp - (ppos + 8))
      ((stoiModel num).getD (-1), dropTrailingWs (rest2.take ppos))
    | none => (-1, rest2)
  | none => (-1, rest2)

/-- One line of `load_tasks`. -/
def parseTaskLine (line : Str) : Task :=
  let rest0 :=
    match findCharIdx ':' line with
    | some i => line.drop (i + 1)
    | none => line
  let rest1 := stripLeadCpp rest0
  let p1 := parseTaskBracket rest1
  let p2 := parseTaskParent p1.2
  ⟨p2.2, p2.1, p1.1⟩

/-- `load_tasks` on a file content (blank lines are skipped). -/
def load_tasks (content : Str) : List Task :=
  (getLines content).filterMap
    (fun line => if line.isEmpty then none else some (parseTaskLine line))

/-- One line of `load_daily_logs`; `now` is the load-time clock used
for the fallback timestamps. -/
def parseLogLine (now : Int) (line : Str) : DailyLog :=
  match findSubstr (str " - ") line with
  | some firstDash =>
    match findSubstrFrom (str " - ") line (firstDash + 3) with
    | some secondDash =>
      { ts := parse_timestamp now (line.take firstDash),
        type := (line.drop (firstDash + 3)).take (secondDash - (firstDash + 3)),
        text := line.drop (secondDash + 3) }
    | none =>
      { ts := parse_timestamp now (line.take firstDash),
        type := str "LOG",
        text := line.drop (firstDash + 3) }
  | none => { ts := now, type := str "LOG", text := line }

/-- `load_daily_logs` on a file content (blank lines are skipped). -/
def load_daily_logs (now : Int) (content : Str) : List DailyLog :=
  (getLines content).filterMap
    (fun line => if line.isEmpty then none else some (parseLogLine now line))

/- Break tracker. -/

def kBreakTypes : List Str :=
  [str "Coffee", str "Bathroom", str "Water", str "Lunch", str "Stretch"]

def start_break (now : Int) (type : Str) (s : AppState) : AppState :=
  append_daily_log now (str "BREAK_START") (str "Started break: " ++ type)
    { s with breaks := s.breaks ++ [⟨type, now, 0⟩] }

def setEnd (b : BreakEntry) (t : Int) : BreakEntry := { b with endTime := t }

/-- The reverse scan of `end_last_break_of_type`, expressed on the
reversed list: close the first matching open entry, returning the new
list and the closed entry. -/
def closeFirstOpen (type : Str) (now : Int) :
    List BreakEntry → Option (List BreakEntry × BreakEntry)
  | [] => none
  | b :: rest =>
    if b.type == type && b.endTime == 0 then some (setEnd b now :: rest, setEnd b now)
    else (closeFirstOpen type now rest).map (fun p => (b :: p.1, p.2))

def end_last_break_of_type (now : Int) (type : Str) (s : AppState) : AppState :=
  match closeFirstOpen type now s.breaks.reverse with
  | some (revBreaks, closed) =>
    append_daily_log now (str "BREAK_END")
      (str "Ended break: " ++ closed.type ++ str " (start "
        ++ format_time_local closed.start ++ str ", end "
        ++ format_time_local closed.endTime ++ [')'])
      { s with breaks := revBreaks.reverse }
  | none =>
    append_daily_log now (str "BREAK_WARN")
      (str "Tried to end break but none active: " ++ type) s

/-- `add_random_break`; the two uniform draws are modelled by the free
parameters `k` (break type index) and `r` (minutes, mapped into 1–20),
and the two adjacent `time(nullptr)` calls as a single `now`. -/
def add_random_break (now : Int) (r k : Nat) (s : AppState) : AppState :=
  let ty := kBreakTypes.getD (k % kBreakTypes.length) []
  let b : BreakEntry := ⟨ty, now - ((1 + r % 20 : Nat) : Int) * 60, now⟩
  append_daily_log now (str "BREAK_RANDOM")
    (str "Random break: " ++ b.type ++ str " (" ++ format_time_local b.start
      ++ str " - " ++ format_time_local b.endTime ++ [')'])
    { s with breaks := s.breaks ++ [b] }

/- Task mutations. -/

def add_task (now : Int) (name : Str) (parent_idx : Int) (s : AppState) : AppState :=
  append_daily_log now (str "TASK") (str "Added task: " ++ name)
    (save_tasks { s with tasks := s.tasks ++ [⟨name, parent_idx, false⟩] })

/-- `tasks[idx].done = done` (the UI checkbox) followed by `save_tasks`;
an out-of-range index leaves the list unchanged. -/
def setDone : List Task → Nat → Bool → List Task
  | [], _, _ => []
  | t :: rest, 0, v => ⟨t.name, t.parent, v⟩ :: rest
  | t :: rest, i + 1, v => t :: setDone rest i v

def toggle_task (i : Nat) (v : Bool) (s : AppState) : AppState :=
  save_tasks { s with tasks := setDone s.tasks i v }

/-- `clearAllData`: clears the three in-memory stores.  It performs no
file operation whatsoever. -/
def clearAllData (s : AppState) : AppState :=
  { s with dailyLogs := [], breaks := [], tasks := [] }

/- Export generator. -/

/-- The events `export_hourly_logs_today` selects. -/
def hourlyTodayQual (now : Int) (logs : List DailyLog) : List DailyLog :=
  logs.filter fun d => d.type == str "HOURLY" && is_same_local_day now d.ts

def export_hourly_logs_today (now : Int) (logs : List DailyLog) (fs : Files) :
    Str × Files :=
  if logs.isEmpty then ([], fs)
  else
    let content :=
      ((hourlyTodayQual now logs).map
        (fun d => human_log_line now d.type d.text d.ts ++ ['\n'])).flatten
    if content.isEmpty then ([], fs)
    else export_text_to_file now (str "hourly_logs_today") content fs

def json_escape : Str → Str
  | [] => []
  | c :: rest =>
    (if c == '\\' then str "\\\\"
     else if c == '"' then str "\\\""
     else if c == '\n' then str "\\n"
     else if c == '\r' then str "\\r"
     else if c == '\t' then str "\\t"
     else [c]) ++ json_escape rest

/-- Modelled from the spec: "JSON string escaping covers backslash,
double-quote, newline, carriage return, tab; no other characters are
escaped" — the spec-side escaper against which `json_escape` is
compared. -/
def specEscapeTable : List (Char × Str) :=
  [('\\', str "\\\\"), ('"', str "\\\""), ('\n', str "\\n"),
   ('\r', str "\\r"), ('\t', str "\\t")]

def jsonEscapeSpec (s : Str) : Str :=
  (s.map (fun c =>
    match specEscapeTable.find? (fun p => p.1 == c) with
    | some p => p.2
    | none => [c])).flatten

def week_seconds : Int := 7 * 24 * 60 * 60

/-- The events the 7-day filter of `export_weekly_logs_file` keeps
(the loop body `if (d.ts < cutoff) continue;`). -/
def weeklyQual (now : Int) (logs : List DailyLog) : List DailyLog :=
  logs.filter fun d => !(d.ts < now - week_seconds)

/-- One line of the JSONL section. -/
def jsonl_line (d : DailyLog) : Str :=
  str "\x7b\"type\":\"HOURLY\",\"timestamp\":\"" ++ json_escape (format_iso_time d.ts)
    ++ str "\",\"text\":\"" ++ json_escape d.text ++ str "\"\x7d"

/-- The full content `export_weekly_logs_file` produces. -/
def weekly_export_content (now : Int) (logs : List DailyLog) : Str :=
  (str "WEEKLY LOG EXPORT\n" ++ str "Generated: " ++ format_time_local now
    ++ str "\n" ++ str "Range: last 7 days\n\n"
    ++ ((weeklyQual now logs).map
        (fun d => human_log_line now d.type d.text d.ts ++ ['\n'])).flatten)
  ++ str "\n=== HOURLY_ENTRIES_JSONL (one JSON object per line) ===\n"
  ++ (((weeklyQual now logs).filter (fun d => d.type == str "HOURLY")).map
      (fun d => jsonl_line d ++ ['\n'])).flatten
  ++ str "\n=== END OF EXPORT ===\n"

def export_weekly_logs_file (now : Int) (logs : List DailyLog) (fs : Files) :
    Str × Files :=
  if logs.isEmpty then ([], fs)
  else export_text_to_file now (str "weekly_logs_export") (weekly_export_content now logs) fs

/- ------------------------------------------------------------------
   Operation sequences for the algebraic claims.
   ------------------------------------------------------------------ -/

inductive BreakOp where
  | startOp (type : Str)
  | endOp (type : Str)
  | randomOp (r k : Nat)
deriving DecidableEq, Repr

def breakStep (s : AppState) : Int × BreakOp → AppState
  | (t, .startOp ty) => start_break t ty s
  | (t, .endOp ty) => end_last_break_of_type t ty s
  | (t, .randomOp r k) => add_random_break t r k s

def runBreaks (s : AppState) (ops : List (Int × BreakOp)) : AppState :=
  ops.foldl breakStep s

/-- The clock readings of the operations are non-decreasing, starting
from lower bound `t`. -/
def clocksMonoFrom (t : Int) : List (Int × BreakOp) → Bool
  | [] => true
  | (t', _) :: rest => decide (t ≤ t') && clocksMonoFrom t' rest

def clocksMono : List (Int × BreakOp) → Bool
  | [] => true
  | (t, op) :: rest => clocksMonoFrom t ((t, op) :: rest)

inductive TaskOp where
  | addOp (name : Str) (parent : Int)
  | toggleOp (i : Nat) (v : Bool)
deriving DecidableEq, Repr

def taskStep (now : Int) (s : AppState) : TaskOp → AppState
  | .addOp n p => add_task now n p s
  | .toggleOp i v => toggle_task i v s

def runTasks (now : Int) (s : AppState) (ops : List TaskOp) : AppState :=
  ops.foldl (taskStep now) s

/-- The parent indices of an operation sequence form a forest: each
`Append` either has no parent or references an existing position (the
store only appends, so such references can never form a cycle). -/
def forestOpsB (len : Nat) : List TaskOp → Bool
  | [] => true
  | .addOp _ p :: rest => (p == -1 || (decide (0 ≤ p) && decide (p < (len : Int)))) && forestOpsB (len + 1) rest
  | .toggleOp _ _ :: rest => forestOpsB len rest

/-- The name restriction under which the task file format round-trips:
nonempty, no newline, no leading blank, no trailing whitespace, and no
embedded `"(parent="`. -/
def goodNameB (n : Str) : Bool :=
  !n.isEmpty && !n.contains '\n' && !isSpaceTab (n.headD '?')
    && !cIsspace (n.reverse.headD '?') && !hasSubstr (str "(parent=") n

def opNameOk : TaskOp → Bool
  | .addOp n _ => goodNameB n
  | .toggleOp _ _ => true

/-- Invariant of the break store: every entry was started no later than
clock `t`, and is either still open (`endTime = 0`) or was closed no
earlier than it started. -/
def breakInv (t : Int) (bs : List BreakEntry) : Prop :=
  ∀ b ∈ bs, b.start ≤ t ∧ (b.endTime = 0 ∨ b.start ≤ b.endTime)

/-- Number of leap years in `[0, y)` — a closed form used to evaluate
`yearDays` without deep recursion. -/
def leapCount (y : Nat) : Nat := (y + 3) / 4 - (y + 99) / 100 + (y + 399) / 400

/-- `cs` ends with the suffix `suf`. -/
def endsWithList (suf cs : Str) : Bool := isPrefixList suf.reverse cs.reverse

theorem revDigitsFuel_zero (f : Nat) : revDigitsFuel f 0 = [] := by
  cases f <;> simp [revDigitsFuel]

theorem revDigitsFuel_irrel (n : Nat) : ∀ f f', n ≤ f → n ≤ f' →
    revDigitsFuel f n = revDigitsFuel f' n := by
  induction n using Nat.strong_induction_on with
  | _ n ih =>
    intro f f' hf hf'
    rcases Nat.eq_zero_or_pos n with rfl | hn
    · rw [revDigitsFuel_zero, revDigitsFuel_zero]
    · cases f with
      | zero => omega
      | succ g =>
        cases f' with
        | zero => omega
        | succ g' =>
          simp only [revDigitsFuel, if_neg (by omega : ¬ n = 0)]
          have hlt : n / 10 < n := Nat.div_lt_self hn (by omega)
          rw [ih (n / 10) hlt g g' (by omega) (by omega)]

theorem natDigs_step (n : Nat) (hn : 0 < n) :
    natDigs n = natDigs (n / 10) ++ [digitChar (n % 10)] := by
  obtain ⟨g, rfl⟩ : ∃ g, n = g + 1 := ⟨n - 1, by omega⟩
  unfold natDigs
  conv_lhs => rw [show revDigitsFuel (g + 1) (g + 1)
    = (g + 1) % 10 :: revDigitsFuel g ((g + 1) / 10) by
      simp [revDigitsFuel]]
  rw [revDigitsFuel_irrel ((g + 1) / 10) g ((g + 1) / 10)
    (by omega) le_rfl]
  simp

theorem natDigs_small (n : Nat) (h1 : 0 < n) (h2 : n < 10) :
    natDigs n = [digitChar n] := by
  rw [natDigs_step n h1, Nat.div_eq_of_lt h2, Nat.mod_eq_of_lt h2]
  simp [natDigs, revDigitsFuel_zero]

theorem digitsVal_append_singleton (a : Str) (c : Char) :
    digitsVal (a ++ [c]) = digitsVal a * 10 + (c.toNat - '0'.toNat) := by
  simp [digitsVal, List.foldl_append]

theorem digitChar_toNat (d : Nat) (h : d < 10) :
    (digitChar d).toNat - '0'.toNat = d := by
  interval_cases d <;> decide

theorem isDigitChar_digitChar (d : Nat) (h : d < 10) :
    isDigitChar (digitChar d) = true := by
  interval_cases d <;> decide

theorem digitsVal_natDigs (n : Nat) : digitsVal (natDigs n) = n := by
  induction n using Nat.strong_induction_on with
  | _ n ih =>
    rcases Nat.eq_zero_or_pos n with rfl | hn
    · simp [natDigs, revDigitsFuel_zero, digitsVal]
    · rw [natDigs_step n hn, digitsVal_append_singleton,
        ih (n / 10) (Nat.div_lt_self hn (by omega)),
        digitChar_toNat (n % 10) (Nat.mod_lt n (by omega))]
      omega

theorem digitsVal_natChars (n : Nat) : digitsVal (natChars n) = n := by
  unfold natChars
  split
  · simp_all [digitsVal]
  · exact digitsVal_natDigs n

theorem natDigs_all_digits (n : Nat) : ∀ c ∈ natDigs n, isDigitChar c = true := by
  induction n using Nat.strong_induction_on with
  | _ n ih =>
    rcases Nat.eq_zero_or_pos n with rfl | hn
    · simp [natDigs, revDigitsFuel_zero]
    · rw [natDigs_step n hn]
      intro c hc
      rcases List.mem_append.mp hc with h | h
      · exact ih (n / 10) (Nat.div_lt_self hn (by omega)) c h
      · simp only [List.mem_singleton] at h
        subst h
        exact isDigitChar_digitChar _ (Nat.mod_lt n (by omega))

theorem natChars_all_digits (n : Nat) : ∀ c ∈ natChars n, isDigitChar c = true := by
  unfold natChars
  split
  · intro c hc; simp only [List.mem_singleton] at hc; subst hc; decide
  · exact natDigs_all_digits n

theorem natChars_ne_nil (n : Nat) : natChars n ≠ [] := by
  unfold natChars
  split
  · simp
  · intro h
    have := digitsVal_natDigs n
    rw [h] at this
    simp [digitsVal] at this
    omega

theorem natDigs_length_le (k : Nat) : ∀ n, n < 10 ^ k → (natDigs n).length ≤ k := by
  induction k with
  | zero =>
    intro n hn
    interval_cases n
    simp [natDigs, revDigitsFuel_zero]
  | succ k ih =>
    intro n hn
    rcases Nat.eq_zero_or_pos n with rfl | hpos
    · simp [natDigs, revDigitsFuel_zero]
    · rw [natDigs_step n hpos]
      have : n / 10 < 10 ^ k := by
        have := Nat.pow_succ 10 k
        omega
      have := ih (n / 10) this
      simp only [List.length_append, List.length_singleton]
      omega

theorem natChars_length_le (k : Nat) (hk : 0 < k) (n : Nat) (hn : n < 10 ^ k) :
    (natChars n).length ≤ k := by
  unfold natChars
  split
  · simpa using hk
  · exact natDigs_length_le k n hn

/- ------------------------------------------------------------------
   Calendar lemmas: `localtimeModel` and `mktimeModel` are mutually
   inverse on the representable range.
   ------------------------------------------------------------------ -/

theorem isLeap_iff (y : Nat) :
    isLeap y = true ↔ ((y % 4 = 0 ∧ y % 100 ≠ 0) ∨ y % 400 = 0) := by
  simp [isLeap]

theorem daysInYear_pos (y : Nat) : 0 < daysInYear y := by
  unfold daysInYear; split <;> omega

theorem daysInYear_ge (y : Nat) : 365 ≤ daysInYear y := by
  unfold daysInYear; split <;> omega

theorem leapCount_succ (y : Nat) :
    leapCount (y + 1) = leapCount y + (if isLeap y then 1 else 0) := by
  have h := isLeap_iff y
  cases hb : isLeap y with
  | true =>
    rw [hb] at h
    simp only [hb, if_true]
    rcases h.mp rfl with ⟨h4, h100⟩ | h400
    · unfold leapCount; omega
    · unfold leapCount; omega
  | false =>
    rw [hb] at h
    simp only [Bool.false_eq_true, false_iff] at h
    push_neg at h
    simp only [hb, Bool.false_eq_true, if_false]
    by_cases h4 : y % 4 = 0
    · have h100 := h.1 h4
      have h400 := h.2
      unfold leapCount; omega
    · have h400 := h.2
      unfold leapCount; omega

theorem daysInYear_eq (y : Nat) :
    daysInYear y = 365 + (if isLeap y then 1 else 0) := by
  unfold daysInYear; split <;> simp_all

theorem yearDays_1970_eq (k : Nat) :
    yearDays 1970 k + leapCount 1970 = 365 * k + leapCount (1970 + k) := by
  induction k with
  | zero => simp [yearDays]
  | succ k ih =>
    show yearDays 1970 k + daysInYear (1970 + k) + leapCount 1970 = _
    have h2 : 1970 + (k + 1) = (1970 + k) + 1 := by omega
    have hstep := leapCount_succ (1970 + k)
    have hd := daysInYear_eq (1970 + k)
    rw [h2]
    cases hl : isLeap (1970 + k) <;> simp only [hl, if_true, if_false,
      Bool.false_eq_true] at hstep hd <;> omega

theorem yearDays_mono (y0 : Nat) : ∀ a b, a ≤ b → yearDays y0 a ≤ yearDays y0 b := by
  intro a b
  induction b with
  | zero =>
    intro h
    have ha : a = 0 := Nat.le_zero.mp h
    subst ha
    exact le_rfl
  | succ b ih =>
    intro h
    rcases Nat.lt_or_ge a (b + 1) with h1 | h1
    · have := ih (by omega)
      show _ ≤ yearDays y0 b + daysInYear (y0 + b)
      omega
    · have : a = b + 1 := by omega
      subst this; rfl

theorem yearDays_1970_8030 : yearDays 1970 8030 = 2932897 := by
  have h := yearDays_1970_eq 8030
  have h1 : leapCount 1970 = 478 := by decide
  have h2 : leapCount (1970 + 8030) = 2425 := by decide
  omega

theorem yearDays_succ_left (y : Nat) : ∀ k, yearDays y (k + 1) = daysInYear y + yearDays (y + 1) k := by
  intro k
  induction k with
  | zero => show yearDays y 0 + daysInYear (y + 0) = _; simp [yearDays]
  | succ k ih =>
    show yearDays y (k + 1) + daysInYear (y + (k + 1)) = daysInYear y + (yearDays (y + 1) k + daysInYear (y + 1 + k))
    rw [ih]
    have : y + (k + 1) = y + 1 + k := by omega
    rw [this]
    omega

theorem yearSplitFuel_spec : ∀ f n y, n < f →
    ∃ k, yearSplitFuel f y n = (y + k, n - yearDays y k)
      ∧ yearDays y k ≤ n ∧ n - yearDays y k < daysInYear (y + k) := by
  intro f
  induction f with
  | zero => intro n y h; omega
  | succ f ih =>
    intro n y h
    by_cases hn : n < daysInYear y
    · refine ⟨0, ?_, ?_, ?_⟩
      · simp [yearSplitFuel, hn, yearDays]
      · simp [yearDays]
      · simpa [yearDays]
    · have hd := daysInYear_pos y
      obtain ⟨k, hk1, hk2, hk3⟩ := ih (n - daysInYear y) (y + 1) (by omega)
      refine ⟨k + 1, ?_, ?_, ?_⟩
      · simp only [yearSplitFuel, if_neg hn]
        rw [hk1, yearDays_succ_left]
        simp only [Prod.mk.injEq]
        exact ⟨by omega, by omega⟩
      · rw [yearDays_succ_left]; omega
      · rw [yearDays_succ_left]
        have : y + (k + 1) = y + 1 + k := by omega
        rw [this]
        omega

theorem yearSplit_spec (n : Nat) :
    ∃ k, yearSplit 1970 n = (1970 + k, n - yearDays 1970 k)
      ∧ yearDays 1970 k ≤ n ∧ n - yearDays 1970 k < daysInYear (1970 + k) := by
  exact yearSplitFuel_spec (n + 1) n 1970 (by omega)

theorem monthSplit_spec : ∀ (ls : List Nat) (n m : Nat), n < ls.sum →
    ∃ j, j < ls.length ∧ monthSplit ls m n = (m + j, n - (ls.take j).sum)
      ∧ (ls.take j).sum ≤ n ∧ n - (ls.take j).sum < ls.getD j 0 := by
  intro ls
  induction ls with
  | nil => intro n m h; simp at h
  | cons a tl ih =>
    intro n m h
    by_cases hn : n < a
    · refine ⟨0, by simp, ?_, by simp, ?_⟩
      · simp [monthSplit, hn]
      · simpa using hn
    · simp only [List.sum_cons] at h
      obtain ⟨j, h1, h2, h3, h4⟩ := ih (n - a) (m + 1) (by omega)
      refine ⟨j + 1, by simpa using h1, ?_, ?_, ?_⟩
      · simp only [monthSplit, if_neg hn, h2, List.take_succ_cons, List.sum_cons,
          Prod.mk.injEq]
        exact ⟨by omega, by omega⟩
      · simp only [List.take_succ_cons, List.sum_cons]; omega
      · simpa only [List.take_succ_cons, List.sum_cons, List.getD_cons_succ] using (by omega : n - (a + (tl.take j).sum) < tl.getD j 0)

theorem sum_monthLengths (y : Nat) : (monthLengths y).sum = daysInYear y := by
  cases h : isLeap y <;> simp [monthLengths, daysInYear, h]

theorem length_monthLengths (y : Nat) : (monthLengths y).length = 12 := rfl

theorem monthLengths_getD_le (y j : Nat) : (monthLengths y).getD j 0 ≤ 31 := by
  cases h : isLeap y <;>
    rcases j with _|_|_|_|_|_|_|_|_|_|_|_|j <;>
    simp [monthLengths, h]

theorem localtimeModel_spec (t : Int) (h0 : 0 ≤ t) (hB : t < 253402300800) :
    1970 ≤ (localtimeModel t).year ∧ (localtimeModel t).year ≤ 9999 ∧
    1 ≤ (localtimeModel t).mon ∧ (localtimeModel t).mon ≤ 12 ∧
    1 ≤ (localtimeModel t).mday ∧ (localtimeModel t).mday ≤ 31 ∧
    (localtimeModel t).hour < 24 ∧ (localtimeModel t).minute < 60 ∧
    (localtimeModel t).sec < 60 ∧
    mktimeModel (localtimeModel t).year (localtimeModel t).mon (localtimeModel t).mday
      (localtimeModel t).hour (localtimeModel t).minute (localtimeModel t).sec = t := by
  have hn : (t.toNat : Int) = t := Int.toNat_of_nonneg h0
  obtain ⟨n, hndef⟩ : ∃ n, t.toNat = n := ⟨t.toNat, rfl⟩
  rw [hndef] at hn
  have hnB : n < 253402300800 := by omega
  have hdays : n / 86400 < 2932897 := by omega
  obtain ⟨k, hk1, hk2, hk3⟩ := yearSplit_spec (n / 86400)
  have hk8030 : k < 8030 := by
    by_contra hge
    have := yearDays_mono 1970 8030 k (by omega)
    rw [yearDays_1970_8030] at this
    omega
  have hsum : (n / 86400) - yearDays 1970 k < (monthLengths (1970 + k)).sum := by
    rw [sum_monthLengths]; exact hk3
  obtain ⟨j, hj1, hj2, hj3, hj4⟩ := monthSplit_spec (monthLengths (1970 + k)) ((n / 86400) - yearDays 1970 k) 0
    hsum
  have hlt : localtimeModel t =
      ⟨1970 + k, j + 1, ((n / 86400) - yearDays 1970 k) - ((monthLengths (1970 + k)).take j).sum + 1,
        n % 86400 / 3600, n % 86400 % 3600 / 60, n % 86400 % 60⟩ := by
    simp only [localtimeModel, hndef]
    rw [hk1]
    dsimp only
    rw [hj2]
    dsimp only
    simp
  rw [hlt]
  dsimp only
  have hgetD := monthLengths_getD_le (1970 + k) j
  have hlen : j < 12 := by
    rw [length_monthLengths] at hj1; exact hj1
  refine ⟨by omega, by omega, by omega, by omega, by omega, by omega, by omega, by omega, by omega, ?_⟩
  unfold mktimeModel monthDaysBefore
  have hyk : 1970 + k - 1970 = k := by omega
  have hjj : j + 1 - 1 = j := by omega
  rw [hyk, hjj]
  have hmod : n % 86400 < 86400 := Nat.mod_lt _ (by omega)
  have hdiv : n / 86400 * 86400 + n % 86400 = n := by omega
  have hfin : (yearDays 1970 k + ((monthLengths (1970 + k)).take j).sum
      + ((n / 86400) - yearDays 1970 k - ((monthLengths (1970 + k)).take j).sum + 1 - 1)) * 86400
      + n % 86400 / 3600 * 3600 + n % 86400 % 3600 / 60 * 60 + n % 86400 % 60 = n := by
    have h1 : yearDays 1970 k + ((monthLengths (1970 + k)).take j).sum
        + ((n / 86400) - yearDays 1970 k - ((monthLengths (1970 + k)).take j).sum + 1 - 1)
        = n / 86400 := by omega
    rw [h1]
    omega
  rw [hfin]
  exact hn


/- ------------------------------------------------------------------
   Scanning lemmas: `sscanf` recovers the fields `strftime` printed.
   ------------------------------------------------------------------ -/

theorem isDigitChar_not_space (c : Char) (h : isDigitChar c = true) :
    cIsspace c = false := by
  by_contra hc
  rw [Bool.not_eq_false] at hc
  simp only [cIsspace, Bool.or_eq_true, beq_iff_eq] at hc
  rcases hc with ((((rfl | rfl) | rfl) | rfl) | rfl) | rfl <;> exact absurd h (by decide)

theorem takeDigits_exact : ∀ (ds : Str) (w : Nat) (rest : Str),
    (∀ c ∈ ds, isDigitChar c = true) → ds.length ≤ w →
    (rest = [] ∨ isDigitChar (rest.headD '0') = false) →
    takeDigits w (ds ++ rest) = (ds, rest) := by
  intro ds
  induction ds with
  | nil =>
    intro w rest _ _ hrest
    rcases hrest with rfl | hr
    · cases w <;> simp [takeDigits]
    · cases rest with
      | nil => cases w <;> simp [takeDigits]
      | cons c r =>
        simp only [List.headD_cons] at hr
        cases w with
        | zero => simp [takeDigits]
        | succ w => simp [takeDigits, hr]
  | cons d ds ih =>
    intro w rest hdig hlen hrest
    cases w with
    | zero => simp at hlen
    | succ w =>
      have hd : isDigitChar d = true := hdig d (by simp)
      simp only [List.cons_append, takeDigits, hd, if_true, List.append_eq]
      rw [ih w rest (fun c hc => hdig c (by simp [hc])) (by simpa using hlen) hrest]

theorem scanNat_exact (w : Nat) (ds rest : Str) (hne : ds ≠ [])
    (hdig : ∀ c ∈ ds, isDigitChar c = true) (hlen : ds.length ≤ w)
    (hrest : rest = [] ∨ isDigitChar (rest.headD '0') = false) :
    scanNat w (ds ++ rest) = some (digitsVal ds, rest) := by
  obtain ⟨d, ds', rfl⟩ : ∃ d ds', ds = d :: ds' := by
    cases ds with
    | nil => simp at hne
    | cons d ds' => exact ⟨d, ds', rfl⟩
  have hd := hdig d (by simp)
  have hsp : cIsspace d = false := isDigitChar_not_space d hd
  unfold scanNat
  rw [List.cons_append]
  have hdw : List.dropWhile cIsspace (d :: (ds' ++ rest)) = d :: (ds' ++ rest) := by
    rw [List.dropWhile_cons]
    simp [hsp]
  have ht := takeDigits_exact (d :: ds') w rest hdig hlen hrest
  rw [List.cons_append] at ht
  rw [hdw]
  simp [ht, List.isEmpty]

theorem scanNat_space (w : Nat) (cs : Str) : scanNat w (' ' :: cs) = scanNat w cs := by
  unfold scanNat
  have hdw : List.dropWhile cIsspace (' ' :: cs) = List.dropWhile cIsspace cs := by
    rw [List.dropWhile_cons]
    simp [cIsspace]
  rw [hdw]

theorem digitsVal_cons_zero (ds : Str) : digitsVal ('0' :: ds) = digitsVal ds := by
  simp [digitsVal]

theorem natChars_small_len (n : Nat) (h : n < 10) : (natChars n).length = 1 := by
  unfold natChars
  split
  · rfl
  · rename_i hne
    rw [natDigs_small n (by omega) h]
    rfl

theorem pad2_all_digits (n : Nat) : ∀ c ∈ pad2 n, isDigitChar c = true := by
  unfold pad2
  split
  · intro c hc
    rcases List.mem_cons.mp hc with rfl | hc
    · decide
    · exact natChars_all_digits n c hc
  · exact natChars_all_digits n

theorem pad2_ne_nil (n : Nat) : pad2 n ≠ [] := by
  unfold pad2
  split
  · simp
  · exact natChars_ne_nil n

theorem pad2_length_le (n : Nat) (h : n < 100) : (pad2 n).length ≤ 2 := by
  unfold pad2
  split
  · rename_i h10
    simp [natChars_small_len n h10]
  · rename_i h10
    unfold natChars
    rw [if_neg (by omega)]
    exact natDigs_length_le 2 n (by omega)

theorem digitsVal_pad2 (n : Nat) : digitsVal (pad2 n) = n := by
  unfold pad2
  split
  · rw [digitsVal_cons_zero, digitsVal_natChars]
  · rw [digitsVal_natChars]

theorem natChars_year_digits (y : Nat) (h1 : 1970 ≤ y) (h2 : y ≤ 9999) :
    (∀ c ∈ natChars y, isDigitChar c = true) ∧ (natChars y).length ≤ 4 ∧ natChars y ≠ [] := by
  refine ⟨natChars_all_digits y, ?_, natChars_ne_nil y⟩
  unfold natChars
  rw [if_neg (by omega)]
  exact natDigs_length_le 4 y (by omega)

theorem sscanf_format (y mo d hh mi ss : Nat) (hy1 : 1970 ≤ y) (hy2 : y ≤ 9999)
    (hmo : mo < 100) (hd : d < 100) (hh2 : hh < 100) (hmi2 : mi < 100) (hss : ss < 100) :
    sscanf_timestamp (natChars y ++ ['-'] ++ pad2 mo ++ ['-'] ++ pad2 d ++ [' ']
      ++ pad2 hh ++ [':'] ++ pad2 mi ++ [':'] ++ pad2 ss) = some (y, mo, d, hh, mi, ss) := by
  obtain ⟨hyd1, hyd2, hydne⟩ := natChars_year_digits y hy1 hy2
  have s1 := scanNat_exact 4 (natChars y)
    ('-' :: (pad2 mo ++ '-' :: (pad2 d ++ ' ' :: (pad2 hh ++ ':' :: (pad2 mi ++ ':' :: pad2 ss)))))
    hydne hyd1 hyd2 (by right; rfl)
  have s2 := scanNat_exact 2 (pad2 mo)
    ('-' :: (pad2 d ++ ' ' :: (pad2 hh ++ ':' :: (pad2 mi ++ ':' :: pad2 ss))))
    (pad2_ne_nil _) (pad2_all_digits _) (pad2_length_le _ hmo) (by right; rfl)
  have s3 := scanNat_exact 2 (pad2 d)
    (' ' :: (pad2 hh ++ ':' :: (pad2 mi ++ ':' :: pad2 ss)))
    (pad2_ne_nil _) (pad2_all_digits _) (pad2_length_le _ hd) (by right; rfl)
  have s4 := scanNat_exact 2 (pad2 hh)
    (':' :: (pad2 mi ++ ':' :: pad2 ss))
    (pad2_ne_nil _) (pad2_all_digits _) (pad2_length_le _ hh2) (by right; rfl)
  have s5 := scanNat_exact 2 (pad2 mi) (':' :: pad2 ss)
    (pad2_ne_nil _) (pad2_all_digits _) (pad2_length_le _ hmi2) (by right; rfl)
  have s6 := scanNat_exact 2 (pad2 ss) []
    (pad2_ne_nil _) (pad2_all_digits _) (pad2_length_le _ hss) (by left; rfl)
  rw [List.append_nil] at s6
  simp only [List.append_assoc, List.singleton_append]
  simp [sscanf_timestamp, s1, s2, s3, s4, s5, s6, scanNat_space, expectChar,
    digitsVal_natChars, digitsVal_pad2]

theorem parse_timestamp_format (now t : Int) (h1 : 1 ≤ t) (hB : t < 253402300800) :
    parse_timestamp now (format_time_local t) = t := by
  obtain ⟨hy1, hy2, hm1, hm2, hd1, hd2, hh, hmi, hs, hmk⟩ :=
    localtimeModel_spec t (by omega) hB
  unfold format_time_local
  rw [if_neg (by simp; omega)]
  unfold parse_timestamp
  rw [sscanf_format (localtimeModel t).year (localtimeModel t).mon (localtimeModel t).mday
    (localtimeModel t).hour (localtimeModel t).minute (localtimeModel t).sec
    hy1 hy2 (by omega) (by omega) (by omega) (by omega) (by omega)]
  exact hmk

/- ------------------------------------------------------------------
   Claim C1 (Clear-All).
   ------------------------------------------------------------------ -/

/-- C1: the claim states that confirmed Clear-All clears the in-memory
event log, break list and task list AND deletes the four persisted core
files AND writes a `cleared_marker.txt`, as one user-facing action.  The
code's `clearAllData` (the only thing the confirmed dialog runs) does
clear the three in-memory stores but performs no file operation at all:
the file system is returned unchanged, so the four files survive and no
marker is ever written.  This contradicts the repository's own README
("deletes core files ...; writes a small cleared_marker.txt"), so the
claim is a code bug, witnessed here on a state holding all four files. -/
theorem C1_clearAllData_no_file_ops :
    (∀ s : AppState, (clearAllData s).dailyLogs = [] ∧ (clearAllData s).breaks = []
      ∧ (clearAllData s).tasks = [] ∧ (clearAllData s).files = s.files) ∧
    (∀ fs : Files,
      lookupFile (clearAllData ⟨[⟨1, str "HOURLY", str "x"⟩], [], [], fs⟩).files
          (path_in_data (str "cleared_marker.txt"))
        = lookupFile fs (path_in_data (str "cleared_marker.txt")) ∧
      lookupFile (clearAllData ⟨[⟨1, str "HOURLY", str "x"⟩], [], [], fs⟩).files daily_logs_path
        = lookupFile fs daily_logs_path) := by
  exact ⟨fun s => ⟨rfl, rfl, rfl, rfl⟩, fun fs => ⟨rfl, rfl⟩⟩

/- ------------------------------------------------------------------
   Claim C5 (7-day filter boundary).
   ------------------------------------------------------------------ -/

/-- C5: in the weekly export's 7-day filter, an event with timestamp
exactly `now − 7×24h` is included, and an event one second older is
excluded.  `weeklyQual` is the filter the export's loop applies
(`if (d.ts < cutoff) continue;` with `cutoff = now - 7*24*60*60`). -/
theorem C5_weekly_filter_boundary (now : Int) (logs : List DailyLog) (d : DailyLog)
    (hmem : d ∈ logs) :
    (d.ts = now - 7 * 24 * 60 * 60 → d ∈ weeklyQual now logs) ∧
    (d.ts = now - 7 * 24 * 60 * 60 - 1 → d ∉ weeklyQual now logs) := by
  constructor
  · intro h
    unfold weeklyQual week_seconds
    rw [List.mem_filter]
    refine ⟨hmem, ?_⟩
    simp only [Bool.not_eq_eq_eq_not, Bool.not_true, decide_eq_false_iff_not, not_lt]
    omega
  · intro h hq
    unfold weeklyQual week_seconds at hq
    rw [List.mem_filter] at hq
    have h2 := hq.2
    simp only [Bool.not_eq_eq_eq_not, Bool.not_true, decide_eq_false_iff_not, not_lt] at h2
    omega

/-- Witness for C5 at a concrete boundary instance. -/
theorem C5_witness :
    (⟨0, str "LOG", str "x"⟩ : DailyLog) ∈ weeklyQual 604800 [⟨0, str "LOG", str "x"⟩] :=
  (C5_weekly_filter_boundary 604800 [⟨0, str "LOG", str "x"⟩] ⟨0, str "LOG", str "x"⟩
    (by simp)).1 (by norm_num)

/- ------------------------------------------------------------------
   Claim C8 (JSON escaper).
   ------------------------------------------------------------------ -/

/-- C8: the JSON string escaper replaces exactly backslash,
double-quote, newline, carriage return and tab by their two-character
escape sequences and leaves every other character unchanged
(`jsonEscapeSpec` is the spec-side five-entry table escaper), and the
text `He said "hi"` + newline escapes to `He said \"hi\"` + literal
backslash-n. -/
theorem C8_json_escape_spec :
    (∀ s : Str, json_escape s = jsonEscapeSpec s) ∧
    json_escape (str "He said \"hi\"\n") = str "He said \\\"hi\\\"\\n" := by
  constructor
  · intro s
    induction s with
    | nil => rfl
    | cons c rest ih =>
      have hc : json_escape (c :: rest) =
          (if c == '\\' then str "\\\\" else if c == '"' then str "\\\""
           else if c == '\n' then str "\\n" else if c == '\r' then str "\\r"
           else if c == '\t' then str "\\t" else [c]) ++ json_escape rest := rfl
      rw [hc, ih]
      show _ = jsonEscapeSpec (c :: rest)
      unfold jsonEscapeSpec
      simp only [List.map_cons, List.flatten_cons]
      congr 1
      by_cases h1 : c = '\\'
      · subst h1; rfl
      by_cases h2 : c = '"'
      · subst h2; rfl
      by_cases h3 : c = '\n'
      · subst h3; rfl
      by_cases h4 : c = '\r'
      · subst h4; rfl
      by_cases h5 : c = '\t'
      · subst h5; rfl
      have e1 : ('\\' == c) = false := beq_eq_false_iff_ne.mpr (Ne.symm h1)
      have e2 : ('"' == c) = false := beq_eq_false_iff_ne.mpr (Ne.symm h2)
      have e3 : ('\n' == c) = false := beq_eq_false_iff_ne.mpr (Ne.symm h3)
      have e4 : ('\r' == c) = false := beq_eq_false_iff_ne.mpr (Ne.symm h4)
      have e5 : ('\t' == c) = false := beq_eq_false_iff_ne.mpr (Ne.symm h5)
      simp [specEscapeTable, List.find?, e1, e2, e3, e4, e5, h1, h2, h3, h4, h5]
  · decide

/- ------------------------------------------------------------------
   Claim C7 (empty-input behavior of the exports).
   ------------------------------------------------------------------ -/

/-- C7: on an empty event log both exports return the empty path and
leave the file system untouched; and on any log with no HOURLY event on
today's local calendar day, the hourly export does the same — the empty
path is the "nothing to export" signal, not an error. -/
theorem C7_exports_empty_input (now : Int) (fs : Files) (logs : List DailyLog) :
    export_hourly_logs_today now [] fs = ([], fs) ∧
    export_weekly_logs_file now [] fs = ([], fs) ∧
    ((∀ d ∈ logs, ¬(d.type = str "HOURLY" ∧ is_same_local_day now d.ts = true)) →
      export_hourly_logs_today now logs fs = ([], fs)) := by
  refine ⟨rfl, rfl, ?_⟩
  intro h
  unfold export_hourly_logs_today
  by_cases hl : logs.isEmpty
  · rw [if_pos hl]
  · rw [if_neg hl]
    have hq : hourlyTodayQual now logs = [] := by
      unfold hourlyTodayQual
      rw [List.filter_eq_nil_iff]
      intro d hd
      have hd2 := h d hd
      simp only [Bool.and_eq_true, beq_iff_eq, not_and]
      intro hty
      intro hsame
      exact hd2 ⟨hty, hsame⟩
    rw [hq]
    rfl

/-- Witness for C7 on a nonempty log with no HOURLY event today. -/
theorem C7_witness :
    export_hourly_logs_today 1704196800 [⟨1704153599, str "HOURLY", str "x"⟩] []
      = ([], []) :=
  (C7_exports_empty_input 1704196800 [] [⟨1704153599, str "HOURLY", str "x"⟩]).2.2
    (by decide)

/- ------------------------------------------------------------------
   Claim C10 (weekly export with only stale events).
   ------------------------------------------------------------------ -/

/-- C10: on a non-empty log whose events are all strictly older than
`now − 7×24h`, the weekly export still writes a file and returns its
non-empty path; the file holds the header and the two section delimiter
lines, but no per-event line and no JSONL entry. -/
theorem C10_weekly_export_all_stale (now : Int) (fs : Files) (logs : List DailyLog)
    (hne : logs ≠ []) (hold : ∀ d ∈ logs, d.ts < now - 7 * 24 * 60 * 60) :
    export_weekly_logs_file now logs fs =
      (path_in_data (str "weekly_logs_export" ++ ['_'] ++ compact_timestamp now ++ str ".txt"),
       (path_in_data (str "weekly_logs_export" ++ ['_'] ++ compact_timestamp now ++ str ".txt"),
        str "WEEKLY LOG EXPORT\n" ++ str "Generated: " ++ format_time_local now
          ++ str "\n" ++ str "Range: last 7 days\n\n"
          ++ str "\n=== HOURLY_ENTRIES_JSONL (one JSON object per line) ===\n"
          ++ str "\n=== END OF EXPORT ===\n" ++ ['\n']) :: fs) ∧
    path_in_data (str "weekly_logs_export" ++ ['_'] ++ compact_timestamp now ++ str ".txt") ≠ [] := by
  have hq : weeklyQual now logs = [] := by
    unfold weeklyQual week_seconds
    rw [List.filter_eq_nil_iff]
    intro d hd
    have := hold d hd
    simp only [Bool.not_eq_eq_eq_not, Bool.not_true, decide_eq_false_iff_not, not_lt, not_le]
    omega
  constructor
  · unfold export_weekly_logs_file
    rw [if_neg (by simpa [List.isEmpty_iff] using hne)]
    unfold weekly_export_content export_text_to_file writeFileTrunc
    rw [hq]
    simp [List.append_assoc]
  · unfold path_in_data user_data_dir str
    simp

/-- Witness for C10: one stale event, fresh file system. -/
theorem C10_witness :
    (export_weekly_logs_file 604801 [⟨0, str "LOG", str "x"⟩] []).1 ≠ [] := by
  have h := C10_weekly_export_all_stale 604801 [] [⟨0, str "LOG", str "x"⟩]
    (by simp) (by intro d hd; simp at hd; rw [hd]; norm_num)
  rw [h.1]
  exact h.2

/- ------------------------------------------------------------------
   Claims C4 and C9 (break tracker).
   ------------------------------------------------------------------ -/

theorem closeFirstOpen_none (ty : Str) (now : Int) : ∀ l : List BreakEntry,
    (∀ b ∈ l, ¬(b.type = ty ∧ b.endTime = 0)) → closeFirstOpen ty now l = none := by
  intro l
  induction l with
  | nil => intro _; rfl
  | cons b bs ih =>
    intro h
    have hb := h b (by simp)
    unfold closeFirstOpen
    rw [if_neg (by simpa [Bool.and_eq_true, beq_iff_eq] using hb),
      ih (fun x hx => h x (by simp [hx]))]
    rfl

/-- C4: `StartBreak("Coffee")`, `StartBreak("Coffee")`, then
`EndMostRecentOpen("Coffee")` closes the second (most recently started)
entry and leaves the first one open, from any prior state; and when no
open entry of the requested category exists, `EndMostRecentOpen` closes
nothing and appends a `BREAK_WARN` event instead of returning an
error. -/
theorem C4_break_pairing (s : AppState) (t1 t2 t3 : Int) (ty : Str) :
    ((end_last_break_of_type t3 (str "Coffee")
        (start_break t2 (str "Coffee") (start_break t1 (str "Coffee") s))).breaks
      = s.breaks ++ [⟨str "Coffee", t1, 0⟩, ⟨str "Coffee", t2, t3⟩]) ∧
    ((∀ b ∈ s.breaks, ¬(b.type = ty ∧ b.endTime = 0)) →
      (end_last_break_of_type t3 ty s).breaks = s.breaks ∧
      (end_last_break_of_type t3 ty s).dailyLogs
        = s.dailyLogs ++ [⟨t3, str "BREAK_WARN",
            str "Tried to end break but none active: " ++ ty⟩]) := by
  constructor
  · have hb : (start_break t2 (str "Coffee") (start_break t1 (str "Coffee") s)).breaks
        = s.breaks ++ [⟨str "Coffee", t1, 0⟩, ⟨str "Coffee", t2, 0⟩] := by
      simp [start_break, append_daily_log]
    unfold end_last_break_of_type
    rw [hb]
    have hrev : (s.breaks ++ [⟨str "Coffee", t1, 0⟩, ⟨str "Coffee", t2, 0⟩]
        : List BreakEntry).reverse
        = ⟨str "Coffee", t2, 0⟩ :: ⟨str "Coffee", t1, 0⟩ :: s.breaks.reverse := by
      simp
    rw [hrev]
    have hclose : closeFirstOpen (str "Coffee") t3
        (⟨str "Coffee", t2, 0⟩ :: ⟨str "Coffee", t1, 0⟩ :: s.breaks.reverse)
        = some (⟨str "Coffee", t2, t3⟩ :: ⟨str "Coffee", t1, 0⟩ :: s.breaks.reverse,
                ⟨str "Coffee", t2, t3⟩) := by
      unfold closeFirstOpen
      rw [if_pos (by simp)]
      rfl
    rw [hclose]
    simp [append_daily_log]
  · intro h
    unfold end_last_break_of_type
    have hnone : closeFirstOpen ty t3 s.breaks.reverse = none :=
      closeFirstOpen_none ty t3 _ (fun b hb => h b (List.mem_reverse.mp hb))
    rw [hnone]
    exact ⟨by simp [append_daily_log], by simp [append_daily_log]⟩

/-- Witness for C4's no-open-entry branch: a single already-closed
Coffee entry is left untouched. -/
theorem C4_witness :
    (end_last_break_of_type 9 (str "Coffee")
        ⟨[], [⟨str "Coffee", 1, 2⟩], [], []⟩).breaks = [⟨str "Coffee", 1, 2⟩] :=
  ((C4_break_pairing ⟨[], [⟨str "Coffee", 1, 2⟩], [], []⟩ 0 0 9 (str "Coffee")).2
    (by decide)).1

theorem breakInv_mono {t t' : Int} (h : t ≤ t') {bs : List BreakEntry}
    (hinv : breakInv t bs) : breakInv t' bs :=
  fun b hb => ⟨le_trans (hinv b hb).1 h, (hinv b hb).2⟩

theorem closeFirstOpen_mem (ty : Str) (now : Int) : ∀ (l res : List BreakEntry)
    (cl : BreakEntry), closeFirstOpen ty now l = some (res, cl) →
    ∀ x ∈ res, x ∈ l ∨ ∃ b ∈ l, b.endTime = 0 ∧ x = setEnd b now := by
  intro l
  induction l with
  | nil => intro res cl h; simp [closeFirstOpen] at h
  | cons b bs ih =>
    intro res cl h x hx
    unfold closeFirstOpen at h
    by_cases hb : (b.type == ty && b.endTime == 0) = true
    · rw [if_pos hb] at h
      simp only [Option.some.injEq, Prod.mk.injEq] at h
      obtain ⟨h1, _⟩ := h
      subst h1
      rcases List.mem_cons.mp hx with rfl | hxbs
      · right
        refine ⟨b, by simp, ?_, rfl⟩
        have := (Bool.and_eq_true _ _).mp hb
        simpa [beq_iff_eq] using this.2
      · left; simp [hxbs]
    · rw [if_neg hb] at h
      cases hcb : closeFirstOpen ty now bs with
      | none => rw [hcb] at h; simp at h
      | some p =>
        rw [hcb] at h
        simp only [Option.map_some', Option.some.injEq, Prod.mk.injEq] at h
        obtain ⟨h1, _⟩ := h
        subst h1
        rcases List.mem_cons.mp hx with rfl | hx1
        · left; simp
        · rcases ih p.1 p.2 (by rw [hcb]) x hx1 with h1 | ⟨bb, hbb, hopen, rfl⟩
          · left; simp [h1]
          · right; exact ⟨bb, by simp [hbb], hopen, rfl⟩

theorem breakStep_inv (s : AppState) (t' : Int) (op : BreakOp)
    (hinv : breakInv t' s.breaks) : breakInv t' (breakStep s (t', op)).breaks := by
  cases op with
  | startOp ty =>
    intro b hb
    simp only [breakStep, start_break, append_daily_log] at hb
    rcases List.mem_append.mp hb with h1 | h1
    · exact hinv b h1
    · simp only [List.mem_singleton] at h1
      subst h1
      exact ⟨le_rfl, Or.inl rfl⟩
  | randomOp r k =>
    intro b hb
    simp only [breakStep, add_random_break, append_daily_log] at hb
    rcases List.mem_append.mp hb with h1 | h1
    · exact hinv b h1
    · simp only [List.mem_singleton] at h1
      subst h1
      refine ⟨by dsimp; omega, Or.inr (by dsimp; omega)⟩
  | endOp ty =>
    intro b hb
    simp only [breakStep, end_last_break_of_type] at hb
    cases hcb : closeFirstOpen ty t' s.breaks.reverse with
    | none =>
      rw [hcb] at hb
      simp only [append_daily_log] at hb
      exact hinv b hb
    | some p =>
      obtain ⟨res, cl⟩ := p
      rw [hcb] at hb
      simp only [append_daily_log] at hb
      have hb2 : b ∈ res := List.mem_reverse.mp hb
      rcases closeFirstOpen_mem ty t' s.breaks.reverse res cl hcb b hb2 with
        h1 | ⟨bb, hbb, hopen, rfl⟩
      · exact hinv b (List.mem_reverse.mp h1)
      · have hbbinv := hinv bb (List.mem_reverse.mp hbb)
        exact ⟨by simpa [setEnd] using hbbinv.1, Or.inr (by simpa [setEnd] using hbbinv.1)⟩

theorem runBreaks_inv : ∀ (ops : List (Int × BreakOp)) (s : AppState) (t : Int),
    breakInv t s.breaks → clocksMonoFrom t ops = true →
    ∀ b ∈ (runBreaks s ops).breaks, b.endTime = 0 ∨ b.start ≤ b.endTime := by
  intro ops
  induction ops with
  | nil => intro s t hinv _ b hb; exact (hinv b hb).2
  | cons p rest ih =>
    obtain ⟨t', op⟩ := p
    intro s t hinv hmono
    simp only [clocksMonoFrom, Bool.and_eq_true, decide_eq_true_eq] at hmono
    obtain ⟨hle, hrest⟩ := hmono
    show ∀ b ∈ (runBreaks (breakStep s (t', op)) rest).breaks, _
    exact ih (breakStep s (t', op)) t'
      (breakStep_inv s t' op (breakInv_mono hle hinv)) hrest

/-- C9: after any sequence of `StartBreak`, `EndMostRecentOpen` and
`RandomBreak` operations whose clock readings are non-decreasing,
starting from an empty break store, every break entry either is still
open (`end` unset, i.e. the `0` sentinel) or satisfies
`start ≤ end`. -/
theorem C9_break_entries_wellformed (ops : List (Int × BreakOp)) (s : AppState)
    (hempty : s.breaks = []) (hmono : clocksMono ops = true) :
    ∀ b ∈ (runBreaks s ops).breaks, b.endTime = 0 ∨ b.start ≤ b.endTime := by
  cases ops with
  | nil =>
    intro b hb
    unfold runBreaks at hb
    simp only [List.foldl_nil] at hb
    rw [hempty] at hb
    simp at hb
  | cons p rest =>
    obtain ⟨t0, op⟩ := p
    unfold clocksMono at hmono
    exact runBreaks_inv ((t0, op) :: rest) s t0
      (by rw [hempty]; intro b hb; simp at hb) hmono

/-- Witness for C9 on a concrete operation sequence. -/
theorem C9_witness :
    ((runBreaks initState
        [(1, .startOp (str "Coffee")), (2, .endOp (str "Coffee")),
         (3, .randomOp 5 2), (3, .endOp (str "Water"))]).breaks.all
      (fun b => b.endTime == 0 || decide (b.start ≤ b.endTime))) = true := by
  have h := C9_break_entries_wellformed
    [(1, .startOp (str "Coffee")), (2, .endOp (str "Coffee")),
     (3, .randomOp 5 2), (3, .endOp (str "Water"))] initState rfl (by decide)
  rw [List.all_eq_true]
  intro b hb
  rcases h b hb with h1 | h1 <;> simp [h1]

/- ------------------------------------------------------------------
   Claim C6 (same-day filter of the hourly export).
   ------------------------------------------------------------------ -/

/-- C6: `ExportHourlyToday` selects exactly the `HOURLY` events whose
local calendar fields (year, month, day-of-month) equal those of the
current instant; with events at `2024-01-01 23:59:59` and
`2024-01-02 00:00:01` (as `time_t` under the UTC local-time model:
`1704153599` and `1704153601`) and now `2024-01-02 12:00:00`
(`1704196800`), only the second event is selected — a calendar-day
comparison, not a 24-hour rolling window. -/
theorem C6_hourly_same_day :
    (∀ (now : Int) (logs : List DailyLog) (d : DailyLog),
      d ∈ hourlyTodayQual now logs ↔
        d ∈ logs ∧ d.type = str "HOURLY"
          ∧ (localtimeModel now).year = (localtimeModel d.ts).year
          ∧ (localtimeModel now).mon = (localtimeModel d.ts).mon
          ∧ (localtimeModel now).mday = (localtimeModel d.ts).mday) ∧
    hourlyTodayQual 1704196800
      [⟨1704153599, str "HOURLY", str "e1"⟩, ⟨1704153601, str "HOURLY", str "e2"⟩]
      = [⟨1704153601, str "HOURLY", str "e2"⟩] := by
  constructor
  · intro now logs d
    unfold hourlyTodayQual is_same_local_day
    rw [List.mem_filter]
    simp only [Bool.and_eq_true, beq_iff_eq]
    tauto
  · decide

/- ------------------------------------------------------------------
   Line-splitting lemmas (`getLines` vs appended content).
   ------------------------------------------------------------------ -/

theorem splitFirstLine_eq_none : ∀ (cs l : Str), splitFirstLine cs = (l, none) →
    cs = l ∧ '\n' ∉ cs := by
  intro cs
  induction cs with
  | nil =>
    intro l h
    simp only [splitFirstLine, Prod.mk.injEq] at h
    simp [← h.1]
  | cons c tl ih =>
    intro l h
    by_cases hc : c = '\n'
    · subst hc
      simp [splitFirstLine, Prod.mk.injEq] at h
    · simp only [splitFirstLine, if_neg hc, Prod.mk.injEq] at h
      obtain ⟨h1, h2⟩ := h
      obtain ⟨h3, h4⟩ := ih (splitFirstLine tl).1 (by rw [Prod.ext_iff]; exact ⟨rfl, h2⟩)
      constructor
      · rw [← h1, ← h3]
      · simp only [List.mem_cons, not_or]
        exact ⟨fun he => hc he.symm, h4⟩

theorem splitFirstLine_eq_some : ∀ (cs l rest : Str), splitFirstLine cs = (l, some rest) →
    cs = l ++ '\n' :: rest ∧ '\n' ∉ l := by
  intro cs
  induction cs with
  | nil =>
    intro l rest h
    simp [splitFirstLine] at h
  | cons c tl ih =>
    intro l rest h
    by_cases hc : c = '\n'
    · subst hc
      rw [show splitFirstLine ('\n' :: tl) = ([], some tl) from by simp [splitFirstLine],
        Prod.mk.injEq, Option.some.injEq] at h
      obtain ⟨h1, h2⟩ := h
      subst h2
      simp [← h1]
    · simp only [splitFirstLine, if_neg hc, Prod.mk.injEq] at h
      obtain ⟨h1, h2⟩ := h
      obtain ⟨h3, h4⟩ := ih (splitFirstLine tl).1 rest (by rw [Prod.ext_iff]; exact ⟨rfl, h2⟩)
      subst h1
      refine ⟨by rw [List.cons_append, ← h3], ?_⟩
      simp only [List.mem_cons, not_or]
      exact ⟨fun he => hc he.symm, h4⟩

theorem splitFirstLine_append (l rest : Str) (h : '\n' ∉ l) :
    splitFirstLine (l ++ '\n' :: rest) = (l, some rest) := by
  induction l with
  | nil => simp [splitFirstLine]
  | cons c l ih =>
    have hc : c ≠ '\n' := fun he => h (by simp [he])
    rw [List.cons_append]
    simp only [splitFirstLine, if_neg hc]
    rw [ih (fun he => h (by simp [he]))]

theorem splitFirstLine_length : ∀ (cs l rest : Str), splitFirstLine cs = (l, some rest) →
    cs.length = l.length + 1 + rest.length := by
  intro cs l rest h
  obtain ⟨h1, _⟩ := splitFirstLine_eq_some cs l rest h
  subst h1
  simp
  omega

theorem getLinesFuel_succ_cons (f : Nat) (c : Char) (tl : Str) :
    getLinesFuel (f + 1) (c :: tl) =
      match splitFirstLine (c :: tl) with
      | (l, none) => [l]
      | (l, some rest) => l :: getLinesFuel f rest := rfl

theorem getLinesFuel_irrel : ∀ (n : Nat) (cs : Str), cs.length = n →
    ∀ f f', n ≤ f → n ≤ f' → getLinesFuel f cs = getLinesFuel f' cs := by
  intro n
  induction n using Nat.strong_induction_on with
  | _ n ih =>
    intro cs hlen f f' hf hf'
    cases cs with
    | nil => cases f <;> cases f' <;> rfl
    | cons c tl =>
      have hn1 : 1 ≤ n := by rw [← hlen]; simp
      cases f with
      | zero => omega
      | succ g =>
      cases f' with
      | zero => omega
      | succ g' =>
      rw [getLinesFuel_succ_cons g c tl, getLinesFuel_succ_cons g' c tl]
      cases hsp : splitFirstLine (c :: tl) with
      | mk l r =>
        cases r with
        | none => rfl
        | some rest =>
          have hl := splitFirstLine_length (c :: tl) l rest hsp
          simp only [List.length_cons] at hl hlen
          simp only []
          rw [ih rest.length (by omega) rest rfl g g' (by omega) (by omega)]

theorem getLines_cons_line (l rest : Str) (h : '\n' ∉ l) :
    getLines (l ++ '\n' :: rest) = l :: getLines rest := by
  unfold getLines
  have hsp := splitFirstLine_append l rest h
  cases hcs : l ++ '\n' :: rest with
  | nil => simp at hcs
  | cons c tl =>
    have hlen2 : tl.length + 1 = l.length + 1 + rest.length := by
      have hc := congrArg List.length hcs
      simp at hc
      simp [← hc]
      omega
    rw [hcs] at hsp
    simp only [List.length_cons]
    rw [getLinesFuel_succ_cons tl.length c tl, hsp]
    simp only []
    rw [getLinesFuel_irrel rest.length rest rfl tl.length rest.length (by omega) le_rfl]

theorem getLines_append_block : ∀ (n : Nat) (prior suffix : Str), prior.length = n →
    (prior = [] ∨ prior.getLast? = some '\n') →
    getLines (prior ++ suffix) = getLines prior ++ getLines suffix := by
  intro n
  induction n using Nat.strong_induction_on with
  | _ n ih =>
    intro prior suffix hlen hp
    rcases hp with rfl | hp
    · simp [getLines, getLinesFuel]
    · have hne : prior ≠ [] := by
        intro he
        rw [he] at hp
        simp at hp
      cases hsp : splitFirstLine prior with
      | mk l r =>
        cases r with
        | none =>
          exfalso
          obtain ⟨h1, h2⟩ := splitFirstLine_eq_none prior l hsp
          refine h2 ?_
          have hd := List.dropLast_append_getLast? '\n' (Option.mem_def.mpr hp)
          rw [← hd]
          simp
        | some rest =>
          obtain ⟨h1, h2⟩ := splitFirstLine_eq_some prior l rest hsp
          have hrest : rest = [] ∨ rest.getLast? = some '\n' := by
            by_cases hr : rest = []
            · exact Or.inl hr
            · right
              rw [h1, List.getLast?_append_cons,
                show ('\n' :: rest : Str) = ['\n'] ++ rest from rfl,
                List.getLast?_append_of_ne_nil _ hr] at hp
              exact hp
          have hlrest := splitFirstLine_length prior l rest hsp
          rw [h1]
          rw [show (l ++ '\n' :: rest) ++ suffix = l ++ '\n' :: (rest ++ suffix) by simp]
          rw [getLines_cons_line l (rest ++ suffix) h2, getLines_cons_line l rest h2]
          rw [ih rest.length (by omega) rest suffix rfl hrest]
          rfl

/- ------------------------------------------------------------------
   Substring-search lemmas for the log-line parser.
   ------------------------------------------------------------------ -/

theorem isPrefixList_append_self : ∀ (p x : Str), isPrefixList p (p ++ x) = true := by
  intro p
  induction p with
  | nil => intro x; rfl
  | cons a p ih =>
    intro x
    simp only [List.cons_append, isPrefixList, Bool.and_eq_true, beq_self_eq_true]
    simpa using ih x

theorem isPrefixList_append_right : ∀ (p x y : Str),
    isPrefixList p x = true → isPrefixList p (x ++ y) = true := by
  intro p
  induction p with
  | nil => intro x y _; rfl
  | cons a p ih =>
    intro x y h
    cases x with
    | nil => simp [isPrefixList] at h
    | cons b x =>
      simp only [isPrefixList, Bool.and_eq_true, List.cons_append] at h ⊢
      exact ⟨h.1, ih x y h.2⟩

theorem findSubstr_cons (pat : Str) (c : Char) (tl : Str) :
    findSubstr pat (c :: tl) =
      if isPrefixList pat (c :: tl) = true then some 0
      else (findSubstr pat tl).map (· + 1) := rfl

theorem endsWithList_cons (s : Str) (c : Char) (a : Str) (h : endsWithList s a = true) :
    endsWithList s (c :: a) = true := by
  unfold endsWithList at h ⊢
  rw [List.reverse_cons]
  exact isPrefixList_append_right _ _ _ h

theorem hasSubstr_cons (pat : Str) (c : Char) (tl : Str) (h : hasSubstr pat tl = true) :
    hasSubstr pat (c :: tl) = true := by
  unfold hasSubstr at h ⊢
  rw [findSubstr_cons]
  split
  · rfl
  · cases hf : findSubstr pat tl with
    | none => rw [hf] at h; simp at h
    | some i => rfl

theorem findSubstr_skip (hd : Char) (pt : Str) : ∀ (ds cs : Str), (∀ c ∈ ds, c ≠ hd) →
    findSubstr (hd :: pt) (ds ++ cs) = (findSubstr (hd :: pt) cs).map (· + ds.length) := by
  intro ds
  induction ds with
  | nil =>
    intro cs _
    rw [List.nil_append]
    cases findSubstr (hd :: pt) cs <;> simp
  | cons c ds ih =>
    intro cs h
    have hc : c ≠ hd := h c (by simp)
    rw [List.cons_append, findSubstr_cons]
    rw [if_neg (by
      simp only [isPrefixList, Bool.and_eq_true, beq_iff_eq, not_and]
      intro he
      exact absurd he.symm hc)]
    rw [ih cs (fun x hx => h x (by simp [hx]))]
    cases findSubstr (hd :: pt) cs with
    | none => simp
    | some i =>
      simp only [Option.map_some', List.length_cons, Option.some.injEq]
      omega

theorem findSubstr_none_of (hd : Char) (pt cs : Str) (h : ∀ c ∈ cs, c ≠ hd) :
    findSubstr (hd :: pt) cs = none := by
  have hs := findSubstr_skip hd pt cs [] h
  rw [List.append_nil] at hs
  rw [hs]
  rfl

theorem hasSubstr_false_cons (pat : Str) (c : Char) (tl : Str)
    (h : hasSubstr pat (c :: tl) = false) : hasSubstr pat tl = false := by
  by_contra hne
  rw [Bool.not_eq_false] at hne
  have := hasSubstr_cons pat c tl hne
  rw [h] at this
  simp at this

theorem endsWithList_false_cons (s : Str) (c : Char) (a : Str)
    (h : endsWithList s (c :: a) = false) : endsWithList s a = false := by
  by_contra hne
  rw [Bool.not_eq_false] at hne
  have := endsWithList_cons s c a hne
  rw [h] at this
  simp at this

theorem findSubstr_sep : ∀ (a b : Str), hasSubstr (str " - ") a = false →
    endsWithList (str " -") a = false →
    findSubstr (str " - ") (a ++ (str " - " ++ b)) = some a.length := by
  intro a
  induction a with
  | nil =>
    intro b _ _
    rw [List.nil_append]
    rw [show (str " - ") ++ b = ' ' :: '-' :: ' ' :: b from rfl, findSubstr_cons]
    rw [if_pos (by
      have := isPrefixList_append_self (str " - ") b
      rwa [show (str " - ") ++ b = ' ' :: '-' :: ' ' :: b from rfl] at this)]
    rfl
  | cons c a ih =>
    intro b h1 h2
    rw [List.cons_append, findSubstr_cons]
    by_cases hpre : isPrefixList (str " - ") (c :: (a ++ (str " - " ++ b))) = true
    · exfalso
      cases a with
      | nil =>
        rw [show ([] : Str) ++ (str " - " ++ b) = ' ' :: '-' :: ' ' :: b from rfl,
          show (str " - ") = ' ' :: '-' :: ' ' :: [] from rfl] at hpre
        simp only [isPrefixList, Bool.and_eq_true, beq_iff_eq] at hpre
        exact absurd hpre.2.1 (by decide)
      | cons c2 a2 =>
        cases a2 with
        | nil =>
          rw [show ([c2] : Str) ++ (str " - " ++ b) = c2 :: ' ' :: '-' :: ' ' :: b from rfl,
            show (str " - ") = ' ' :: '-' :: ' ' :: [] from rfl] at hpre
          simp only [isPrefixList, Bool.and_eq_true, beq_iff_eq] at hpre
          obtain ⟨hc1, hc2, _⟩ := hpre
          subst hc1
          subst hc2
          exact absurd h2 (by decide)
        | cons c3 a3 =>
          rw [show ((c2 :: c3 :: a3 : Str) ++ (str " - " ++ b))
              = c2 :: c3 :: (a3 ++ (str " - " ++ b)) from by simp,
            show (str " - ") = ' ' :: '-' :: ' ' :: [] from rfl] at hpre
          simp only [isPrefixList, Bool.and_eq_true, beq_iff_eq] at hpre
          obtain ⟨hc1, hc2, hc3, _⟩ := hpre
          subst hc1
          subst hc2
          subst hc3
          have : hasSubstr (str " - ") (' ' :: '-' :: ' ' :: a3) = true := by
            unfold hasSubstr
            rw [show (' ' :: '-' :: ' ' :: a3 : Str) = (str " - ") ++ a3 from rfl,
              show ((str " - ") ++ a3 : Str) = ' ' :: ('-' :: ' ' :: a3) from rfl,
              findSubstr_cons]
            rw [if_pos (by
              have := isPrefixList_append_self (str " - ") a3
              rwa [show (str " - ") ++ a3 = ' ' :: ('-' :: ' ' :: a3) from rfl] at this)]
            rfl
          rw [h1] at this
          simp at this
    · rw [if_neg hpre]
      rw [ih b (hasSubstr_false_cons _ c a h1) (endsWithList_false_cons _ c a h2)]
      simp

theorem isDigit_ne_of (c x : Char) (h : isDigitChar c = true)
    (hx : isDigitChar x = false) : c ≠ x := by
  intro he
  subst he
  rw [h] at hx
  exact Bool.noConfusion hx

theorem findSubstr_sep_skip2 (A1 A2 rest : Str)
    (hA1 : ∀ c ∈ A1, c ≠ ' ') (hA2 : ∀ c ∈ A2, c ≠ ' ')
    (hA2head : ∃ d tl, A2 = d :: tl ∧ d ≠ '-') :
    findSubstr (str " - ") ((A1 ++ (' ' :: A2)) ++ (str " - " ++ rest))
      = some (A1.length + 1 + A2.length) := by
  obtain ⟨d, tl, rfl, hd⟩ := hA2head
  have hshape : (A1 ++ (' ' :: d :: tl)) ++ (str " - " ++ rest)
      = A1 ++ (' ' :: (d :: (tl ++ (str " - " ++ rest)))) := by simp
  rw [hshape]
  rw [show (str " - ") = (' ' : Char) :: '-' :: ' ' :: [] from rfl]
  rw [findSubstr_skip ' ' ('-' :: ' ' :: []) A1 _ hA1]
  rw [findSubstr_cons]
  rw [if_neg (by
    simp only [isPrefixList, Bool.and_eq_true, beq_iff_eq, not_and]
    intro _ h2
    exact absurd h2.symm hd)]
  rw [show (d :: (tl ++ ((' ' : Char) :: '-' :: ' ' :: [] ++ rest)))
      = (d :: tl) ++ ((' ' : Char) :: '-' :: ' ' :: [] ++ rest) from rfl]
  rw [findSubstr_skip ' ' ('-' :: ' ' :: []) (d :: tl) _ hA2]
  rw [show ((' ' : Char) :: '-' :: ' ' :: [] ++ rest)
      = (' ' : Char) :: ('-' :: ' ' :: rest) from rfl]
  rw [findSubstr_cons]
  rw [if_pos (by
    have := isPrefixList_append_self ((' ' : Char) :: '-' :: ' ' :: []) rest
    rwa [show ((' ' : Char) :: '-' :: ' ' :: [] ++ rest)
      = (' ' : Char) :: ('-' :: ' ' :: rest) from rfl] at this)]
  simp only [Option.map_some', Option.some.injEq, List.length_cons]
  omega

theorem format_decomp (t : Int) (h0 : 1 ≤ t) :
    format_time_local t =
      (natChars (localtimeModel t).year ++ ['-'] ++ pad2 (localtimeModel t).mon ++ ['-']
        ++ pad2 (localtimeModel t).mday)
      ++ (' ' :: (pad2 (localtimeModel t).hour ++ [':'] ++ pad2 (localtimeModel t).minute
        ++ [':'] ++ pad2 (localtimeModel t).sec)) := by
  unfold format_time_local
  rw [if_neg (by simp; omega)]
  simp [List.append_assoc]

theorem mem_format_classify (t : Int) (h0 : 1 ≤ t) :
    ∀ c ∈ format_time_local t,
      isDigitChar c = true ∨ c = '-' ∨ c = ':' ∨ c = ' ' := by
  intro c hc
  rw [format_decomp t h0] at hc
  simp only [List.mem_append, List.mem_cons, List.not_mem_nil, or_false] at hc
  rcases hc with ((((hc | hc) | hc) | hc) | hc) | hc | ((((hc | hc) | hc) | hc) | hc)
  · exact Or.inl (natChars_all_digits _ c hc)
  · exact Or.inr (Or.inl hc)
  · exact Or.inl (pad2_all_digits _ c hc)
  · exact Or.inr (Or.inl hc)
  · exact Or.inl (pad2_all_digits _ c hc)
  · exact Or.inr (Or.inr (Or.inr hc))
  · exact Or.inl (pad2_all_digits _ c hc)
  · exact Or.inr (Or.inr (Or.inl hc))
  · exact Or.inl (pad2_all_digits _ c hc)
  · exact Or.inr (Or.inr (Or.inl hc))
  · exact Or.inl (pad2_all_digits _ c hc)

theorem format_no_newline (t : Int) (h0 : 1 ≤ t) :
    '\n' ∉ format_time_local t := by
  intro hc
  rcases mem_format_classify t h0 '\n' hc with h | h | h | h
  · exact absurd h (by decide)
  all_goals exact absurd h (by decide)

theorem format_ne_nil (t : Int) : format_time_local t ≠ [] := by
  unfold format_time_local
  split
  · simp [str]
  · simp only [List.append_assoc]
    intro h
    exact natChars_ne_nil _ (List.append_eq_nil.mp h).1

theorem findSubstr_sep_format (t : Int) (h0 : 1 ≤ t) (hB : t < 253402300800)
    (rest : Str) :
    findSubstr (str " - ") (format_time_local t ++ (str " - " ++ rest))
      = some (format_time_local t).length := by
  obtain ⟨hy1, hy2, hm1, hm2, hd1, hd2, hhour, hmin, hsec, _⟩ :=
    localtimeModel_spec t (by omega) hB
  have hfmt := format_decomp t h0
  obtain ⟨d0, tl0, hpd⟩ : ∃ d0 tl0, pad2 (localtimeModel t).hour = d0 :: tl0 := by
    cases hp : pad2 (localtimeModel t).hour with
    | nil => exact absurd hp (pad2_ne_nil _)
    | cons a b => exact ⟨a, b, rfl⟩
  have hd0 : isDigitChar d0 = true := by
    have := pad2_all_digits (localtimeModel t).hour d0
    rw [hpd] at this
    exact this (by simp)
  rw [hfmt]
  rw [findSubstr_sep_skip2 _ _ rest ?hA1 ?hA2 ?hA2h]
  case hA1 =>
    intro c hc
    simp only [List.mem_append, List.mem_cons, List.not_mem_nil, or_false] at hc
    rcases hc with (((hc | hc) | hc) | hc) | hc
    · exact isDigit_ne_of c ' ' (natChars_all_digits _ c hc) (by decide)
    · subst hc; decide
    · exact isDigit_ne_of c ' ' (pad2_all_digits _ c hc) (by decide)
    · subst hc; decide
    · exact isDigit_ne_of c ' ' (pad2_all_digits _ c hc) (by decide)
  case hA2 =>
    intro c hc
    simp only [List.mem_append, List.mem_cons, List.not_mem_nil, or_false] at hc
    rcases hc with (((hc | hc) | hc) | hc) | hc
    · exact isDigit_ne_of c ' ' (pad2_all_digits _ c hc) (by decide)
    · subst hc; decide
    · exact isDigit_ne_of c ' ' (pad2_all_digits _ c hc) (by decide)
    · subst hc; decide
    · exact isDigit_ne_of c ' ' (pad2_all_digits _ c hc) (by decide)
  case hA2h =>
    refine ⟨d0, tl0 ++ [':'] ++ pad2 (localtimeModel t).minute ++ [':']
      ++ pad2 (localtimeModel t).sec, ?_, isDigit_ne_of d0 '-' hd0 (by decide)⟩
    rw [hpd]
    simp
  have hlen := congrArg List.length hfmt
  simp only [List.length_append, List.length_cons, List.length_nil] at hlen
  simp only [Option.some.injEq, List.length_append, List.length_cons, List.length_nil]
  omega

theorem parseLogLine_enc (now t : Int) (kind text : Str)
    (ht1 : 1 ≤ t) (ht2 : t < 253402300800)
    (hkind1 : hasSubstr (str " - ") kind = false)
    (hkind3 : endsWithList (str " -") kind = false) :
    parseLogLine now (format_time_local t ++ (str " - " ++ (kind ++ (str " - " ++ text))))
      = ⟨t, kind, text⟩ := by
  have hfind1 := findSubstr_sep_format t ht1 ht2 (kind ++ (str " - " ++ text))
  have hdrop1 : (format_time_local t ++ (str " - " ++ (kind ++ (str " - " ++ text)))).drop
      ((format_time_local t).length + 3) = kind ++ (str " - " ++ text) := by
    rw [show format_time_local t ++ (str " - " ++ (kind ++ (str " - " ++ text)))
        = (format_time_local t ++ str " - ") ++ (kind ++ (str " - " ++ text)) from by simp,
      show (format_time_local t).length + 3 = (format_time_local t ++ str " - ").length from by
        rw [List.length_append]; rfl]
    exact List.drop_left _ _
  have hfind2 : findSubstrFrom (str " - ")
      (format_time_local t ++ (str " - " ++ (kind ++ (str " - " ++ text))))
      ((format_time_local t).length + 3)
      = some (kind.length + ((format_time_local t).length + 3)) := by
    unfold findSubstrFrom
    rw [hdrop1, findSubstr_sep kind text hkind1 hkind3]
    rfl
  unfold parseLogLine
  rw [hfind1]
  simp only []
  rw [hfind2]
  simp only [DailyLog.mk.injEq]
  refine ⟨?_, ?_, ?_⟩
  · rw [show format_time_local t ++ (str " - " ++ (kind ++ (str " - " ++ text)))
        = format_time_local t ++ (str " - " ++ (kind ++ (str " - " ++ text))) from rfl,
      show (format_time_local t ++ (str " - " ++ (kind ++ (str " - " ++ text)))).take
          (format_time_local t).length = format_time_local t from List.take_left _ _]
    exact parse_timestamp_format now t ht1 ht2
  · rw [hdrop1]
    rw [show kind.length + ((format_time_local t).length + 3)
        - ((format_time_local t).length + 3) = kind.length from by omega]
    rw [show kind ++ (str " - " ++ text) = kind ++ (str " - " ++ text) from rfl]
    exact List.take_left _ _
  · rw [show kind.length + ((format_time_local t).length + 3) + 3
        = ((format_time_local t).length + 3) + (kind.length + 3) from by omega]
    rw [← List.drop_drop]
    rw [hdrop1]
    rw [show kind ++ (str " - " ++ text) = (kind ++ str " - ") ++ text from by simp,
      show kind.length + 3 = (kind ++ str " - ").length from by rw [List.length_append]; rfl]
    exact List.drop_left _ _

theorem human_log_line_self (n : Int) (ty tx : Str) :
    human_log_line n ty tx n
      = format_time_local n ++ (str " - " ++ (ty ++ (str " - " ++ tx))) := by
  unfold human_log_line
  split <;> simp [List.append_assoc]

theorem lookupFile_write_head (fs : Files) (p c : Str) :
    lookupFile ((p, c) :: fs) p = some c := by
  unfold lookupFile
  rw [List.find?_cons_of_pos _ (by simp)]
  rfl

/-- C3 (amended): appending an event and reloading the log reproduces
`(kind, text)` exactly and the timestamp exactly (hence to one-second
precision), provided additionally that `text` and `kind` contain no
newline, `kind` contains no `" - "` and does not end in `" -"`, and the
timestamp lies in the representable formatting range
`1 ≤ t < 253402300800`.  The claim as stated (only: `text` contains no
`" - "`) is falsified by a newline in `text`
(`C3_counterexample_newline`). -/
theorem C3_event_log_roundtrip (s : AppState) (loadNow t : Int) (kind text : Str)
    (ht1 : 1 ≤ t) (ht2 : t < 253402300800)
    (htext0 : hasSubstr (str " - ") text = false)
    (htext1 : '\n' ∉ text)
    (hkind0 : hasSubstr (str " - ") kind = false)
    (hkind1 : '\n' ∉ kind)
    (hkind2 : endsWithList (str " -") kind = false)
    (hprior : (lookupFile s.files daily_logs_path).getD [] = []
      ∨ ((lookupFile s.files daily_logs_path).getD []).getLast? = some '\n') :
    (append_daily_log t kind text s).dailyLogs = s.dailyLogs ++ [⟨t, kind, text⟩] ∧
    load_daily_logs loadNow
        ((lookupFile (append_daily_log t kind text s).files daily_logs_path).getD [])
      = load_daily_logs loadNow ((lookupFile s.files daily_logs_path).getD [])
        ++ [⟨t, kind, text⟩] := by
  constructor
  · rfl
  · have hlk : lookupFile (append_daily_log t kind text s).files daily_logs_path
        = some ((lookupFile s.files daily_logs_path).getD []
            ++ human_log_line t kind text t ++ ['\n']) := by
      unfold append_daily_log appendLineToFile
      exact lookupFile_write_head _ _ _
    rw [hlk]
    simp only [Option.getD_some]
    have hline := human_log_line_self t kind text
    have hnl : '\n' ∉ human_log_line t kind text t := by
      rw [hline]
      intro hc
      simp only [List.mem_append] at hc
      rcases hc with hc | hc | hc | hc | hc
      · exact format_no_newline t ht1 hc
      · exact absurd hc (by decide)
      · exact hkind1 hc
      · exact absurd hc (by decide)
      · exact htext1 hc
    have hne : human_log_line t kind text t ≠ [] := by
      rw [hline]
      intro h
      exact format_ne_nil t (List.append_eq_nil.mp h).1
    rw [show (lookupFile s.files daily_logs_path).getD []
          ++ human_log_line t kind text t ++ ['\n']
        = (lookupFile s.files daily_logs_path).getD []
          ++ (human_log_line t kind text t ++ ['\n']) from by simp]
    unfold load_daily_logs
    rw [getLines_append_block ((lookupFile s.files daily_logs_path).getD []).length
      _ _ rfl hprior]
    rw [List.filterMap_append]
    congr 1
    have hgl : getLines (human_log_line t kind text t ++ ['\n'])
        = [human_log_line t kind text t] := by
      have hg := getLines_cons_line (human_log_line t kind text t) [] hnl
      simpa [getLines, getLinesFuel] using hg
    rw [hgl]
    rw [show List.filterMap
          (fun line => if line.isEmpty = true then none else some (parseLogLine loadNow line))
          [human_log_line t kind text t]
        = [parseLogLine loadNow (human_log_line t kind text t)] from by
      simp [List.filterMap, List.isEmpty_iff, hne]]
    rw [hline, parseLogLine_enc loadNow t kind text ht1 ht2 hkind0 hkind2]

/-- Counterexample to C3 as stated: the text `a` + newline + `b`
contains no `" - "`, yet append-then-reload yields two events, not the
original one. -/
theorem C3_counterexample_newline :
    hasSubstr (str " - ") (str "a\nb") = false ∧
    load_daily_logs 999
        ((lookupFile (append_daily_log 1704196800 (str "HOURLY") (str "a\nb")
            initState).files daily_logs_path).getD [])
      ≠ [⟨1704196800, str "HOURLY", str "a\nb"⟩] := by
  constructor
  · decide
  · decide

/-- Witness for C3 on a concrete well-formed event. -/
theorem C3_witness :
    load_daily_logs 999
        ((lookupFile (append_daily_log 1704196800 (str "HOURLY") (str "did stuff")
            initState).files daily_logs_path).getD [])
      = [⟨1704196800, str "HOURLY", str "did stuff"⟩] := by
  have h := C3_event_log_roundtrip initState 999 1704196800 (str "HOURLY") (str "did stuff")
    (by norm_num) (by norm_num) (by decide) (by decide) (by decide) (by decide) (by decide)
    (by left; rfl)
  have h2 := h.2
  rw [show load_daily_logs 999 ((lookupFile initState.files daily_logs_path).getD [])
      = [] from rfl] at h2
  simpa using h2

/- ------------------------------------------------------------------
   Lemmas for the task-file round trip (claim C2).
   ------------------------------------------------------------------ -/

theorem findCharIdx_append (c : Char) : ∀ (ds rest : Str), c ∉ ds →
    findCharIdx c (ds ++ c :: rest) = some ds.length := by
  intro ds
  induction ds with
  | nil =>
    intro rest _
    rw [List.nil_append]
    simp [findCharIdx]
  | cons a ds ih =>
    intro rest h
    have ha : ¬(a == c) = true := by
      simp only [beq_iff_eq]
      exact fun he => h (by simp [he])
    rw [List.cons_append]
    simp only [findCharIdx, if_neg ha]
    rw [ih rest (fun hm => h (by simp [hm]))]
    rfl

theorem rfindSubstr_none_of (h0 : Char) (pt : Str) : ∀ cs : Str, h0 ∉ cs →
    rfindSubstr (h0 :: pt) cs = none := by
  intro cs
  induction cs with
  | nil => intro _; simp [rfindSubstr]
  | cons c tl ih =>
    intro h
    unfold rfindSubstr
    rw [ih (fun hm => h (by simp [hm]))]
    rw [if_neg (by
      simp only [isPrefixList, Bool.and_eq_true, beq_iff_eq, not_and]
      intro he
      exact absurd (by simp [he] : h0 ∈ c :: tl) h)]

theorem rfindSubstr_eq_none (pat : Str) : ∀ cs : Str, hasSubstr pat cs = false →
    rfindSubstr pat cs = none := by
  intro cs
  induction cs with
  | nil =>
    intro h
    unfold hasSubstr findSubstr at h
    unfold rfindSubstr
    split at h
    · simp at h
    · rw [if_neg (by assumption)]
  | cons c tl ih =>
    intro h
    unfold rfindSubstr
    rw [ih (hasSubstr_false_cons pat c tl h)]
    rw [if_neg (by
      intro hpre
      unfold hasSubstr at h
      rw [findSubstr_cons, if_pos hpre] at h
      simp at h)]

theorem rfindSubstr_unique : ∀ (name : Str) (ds : Str),
    hasSubstr (str "(parent=") name = false →
    (∀ c ∈ ds, isDigitChar c = true) →
    rfindSubstr (str "(parent=") (name ++ (' ' :: (str "(parent=" ++ (ds ++ [')']))))
      = some (name.length + 1) := by
  intro name
  induction name with
  | nil =>
    intro ds _ hds
    rw [List.nil_append]
    have hnone : rfindSubstr (str "(parent=")
        (str "parent=" ++ (ds ++ [')'])) = none := by
      rw [show (str "(parent=") = '(' :: str "parent=" from rfl]
      apply rfindSubstr_none_of
      intro hm
      simp only [List.mem_append, List.mem_cons, List.not_mem_nil, or_false] at hm
      rcases hm with hm | hm | hm
      · revert hm; decide
      · exact absurd (hds '(' hm) (by decide)
      · exact absurd hm (by decide)
    have hzero : rfindSubstr (str "(parent=")
        ((str "(parent=") ++ (ds ++ [')'])) = some 0 := by
      rw [show (str "(parent=") ++ (ds ++ [')'])
          = '(' :: (str "parent=" ++ (ds ++ [')'])) from rfl]
      unfold rfindSubstr
      rw [hnone]
      rw [if_pos (by
        have := isPrefixList_append_self (str "(parent=") (ds ++ [')'])
        rwa [show (str "(parent=") ++ (ds ++ [')'])
          = '(' :: (str "parent=" ++ (ds ++ [')'])) from rfl] at this)]
    rw [show (' ' :: ((str "(parent=") ++ (ds ++ [')'])) : Str)
        = ' ' :: ('(' :: (str "parent=" ++ (ds ++ [')']))) from rfl]
    unfold rfindSubstr
    rw [show ('(' :: (str "parent=" ++ (ds ++ [')'])) : Str)
        = (str "(parent=") ++ (ds ++ [')']) from rfl, hzero]
    rfl
  | cons c name ih =>
    intro ds hname hds
    rw [List.cons_append]
    unfold rfindSubstr
    rw [ih ds (hasSubstr_false_cons _ c name hname) hds]
    rfl

theorem takeDigitsAll_all : ∀ ds : Str, (∀ c ∈ ds, isDigitChar c = true) →
    takeDigitsAll ds = (ds, []) := by
  intro ds
  induction ds with
  | nil => intro _; rfl
  | cons d ds ih =>
    intro h
    have hd := h d (by simp)
    simp only [takeDigitsAll, hd, if_true]
    rw [ih (fun c hc => h c (by simp [hc]))]

theorem stoiModel_natChars (n : Nat) : stoiModel (natChars n) = some ((n : Nat) : Int) := by
  obtain ⟨d, tl, hds⟩ : ∃ d tl, natChars n = d :: tl := by
    cases hn : natChars n with
    | nil => exact absurd hn (natChars_ne_nil n)
    | cons a b => exact ⟨a, b, rfl⟩
  have hd : isDigitChar d = true := by
    have := natChars_all_digits n d
    rw [hds] at this
    exact this (by simp)
  have halld : ∀ c ∈ d :: tl, isDigitChar c = true := by
    rw [← hds]
    exact natChars_all_digits n
  unfold stoiModel
  rw [hds]
  rw [show List.dropWhile cIsspace (d :: tl) = d :: tl from by
    rw [List.dropWhile_cons, if_neg (by simp [isDigitChar_not_space d hd])]]
  simp only []
  rw [if_neg (isDigit_ne_of d '-' hd (by decide)), if_neg (isDigit_ne_of d '+' hd (by decide))]
  rw [takeDigitsAll_all (d :: tl) halld]
  simp only [List.isEmpty_cons, Bool.false_eq_true, if_false]
  rw [← hds, digitsVal_natChars]

theorem dropTrailingWs_append_space (name : Str) (hne : name ≠ [])
    (hlast : cIsspace (name.reverse.headD '?') = false) :
    dropTrailingWs (name ++ [' ']) = name := by
  obtain ⟨r0, rtl, hrev⟩ : ∃ r0 rtl, name.reverse = r0 :: rtl := by
    cases hr : name.reverse with
    | nil =>
      exact absurd (by simpa using congrArg List.reverse hr) hne
    | cons a b => exact ⟨a, b, rfl⟩
  rw [hrev, List.headD_cons] at hlast
  unfold dropTrailingWs
  rw [List.reverse_append]
  rw [show ([' '] : Str).reverse = [' '] from rfl]
  rw [show ([' '] : Str) ++ name.reverse = ' ' :: name.reverse from rfl]
  rw [List.dropWhile_cons, if_pos (by simp [cIsspace])]
  rw [hrev, List.dropWhile_cons, if_neg (by simp [hlast])]
  rw [← hrev, List.reverse_reverse]

theorem stripLeadCpp_space (x : Str) (hx : ∃ c ∈ x, isSpaceTab c = false)
    (hhead : isSpaceTab (x.headD '?') = false) (hne : x ≠ []) :
    stripLeadCpp (' ' :: x) = x := by
  obtain ⟨x0, xtl, rfl⟩ : ∃ x0 xtl, x = x0 :: xtl := by
    cases x with
    | nil => exact absurd rfl hne
    | cons a b => exact ⟨a, b, rfl⟩
  rw [List.headD_cons] at hhead
  unfold stripLeadCpp
  rw [if_neg (by
    intro hall
    rw [List.all_eq_true] at hall
    have := hall x0 (by simp)
    rw [hhead] at this
    exact Bool.noConfusion this)]
  rw [List.dropWhile_cons, if_pos (by simp [isSpaceTab])]
  rw [List.dropWhile_cons, if_neg (by simp [hhead])]

theorem parseTaskParent_noparent (name : Str)
    (hsub : hasSubstr (str "(parent=") name = false) :
    parseTaskParent name = (-1, name) := by
  unfold parseTaskParent
  rw [rfindSubstr_eq_none _ name hsub]

theorem parseTaskParent_parent (name : Str) (p : Nat)
    (hsub : hasSubstr (str "(parent=") name = false)
    (hne : name ≠ []) (hlast : cIsspace (name.reverse.headD '?') = false) :
    parseTaskParent (name ++ (' ' :: (str "(parent=" ++ (natChars p ++ [')']))))
      = (((p : Nat) : Int), name) := by
  unfold parseTaskParent
  rw [rfindSubstr_unique name (natChars p) hsub (natChars_all_digits p)]
  have hdrop : (name ++ (' ' :: (str "(parent=" ++ (natChars p ++ [')'])))).drop
      (name.length + 1) = str "(parent=" ++ (natChars p ++ [')']) := by
    rw [show name ++ (' ' :: (str "(parent=" ++ (natChars p ++ [')'])))
        = (name ++ [' ']) ++ (str "(parent=" ++ (natChars p ++ [')'])) from by simp,
      show name.length + 1 = (name ++ [' ']).length from by rw [List.length_append]; rfl]
    exact List.drop_left _ _
  have hfc : findCharFrom ')' (name ++ (' ' :: (str "(parent=" ++ (natChars p ++ [')']))))
      (name.length + 1) = some ((str "(parent=" ++ natChars p).length + (name.length + 1)) := by
    unfold findCharFrom
    rw [hdrop]
    rw [show str "(parent=" ++ (natChars p ++ [')'])
        = (str "(parent=" ++ natChars p) ++ ')' :: [] from by simp]
    rw [findCharIdx_append ')' (str "(parent=" ++ natChars p) [] (by
      intro hm
      simp only [List.mem_append] at hm
      rcases hm with hm | hm
      · revert hm; decide
      · exact absurd (natChars_all_digits p ')' hm) (by decide))]
    rfl
  simp only []
  rw [hfc]
  simp only []
  have hd2 : (name ++ (' ' :: (str "(parent=" ++ (natChars p ++ [')'])))).drop
      (name.length + 1 + 8) = natChars p ++ [')'] := by
    rw [show name ++ (' ' :: (str "(parent=" ++ (natChars p ++ [')'])))
        = ((name ++ [' ']) ++ str "(parent=") ++ (natChars p ++ [')']) from by simp,
      show name.length + 1 + 8 = ((name ++ [' ']) ++ str "(parent=").length from by
        rw [List.length_append, List.length_append]; rfl]
    exact List.drop_left _ _
  rw [hd2]
  rw [show (str "(parent=" ++ natChars p).length + (name.length + 1)
      - (name.length + 1 + 8) = (natChars p).length from by
    rw [List.length_append]
    have : (str "(parent=").length = 8 := rfl
    omega]
  rw [List.take_left (natChars p) [')']]
  rw [stoiModel_natChars p]
  rw [show (name ++ (' ' :: (str "(parent=" ++ (natChars p ++ [')'])))).take
      (name.length + 1) = name ++ [' '] from by
    rw [show name ++ (' ' :: (str "(parent=" ++ (natChars p ++ [')'])))
        = (name ++ [' ']) ++ (str "(parent=" ++ (natChars p ++ [')'])) from by simp,
      show name.length + 1 = (name ++ [' ']).length from by rw [List.length_append]; rfl]
    exact List.take_left _ _]
  rw [dropTrailingWs_append_space name hne hlast]
  rfl

theorem parseTask_front (i : Nat) (m : Char) (tail : Str)
    (hm : m ≠ ']')
    (htail_ne : tail ≠ [])
    (htail_head : isSpaceTab (tail.headD '?') = false) :
    parseTaskLine (natChars i ++ (':' :: ' ' :: '[' :: m :: ']' :: ' ' :: tail))
      = ⟨(parseTaskParent tail).2, (parseTaskParent tail).1, m == 'x' || m == 'X'⟩ := by
  unfold parseTaskLine
  rw [findCharIdx_append ':' (natChars i) _
    (fun hc => absurd (natChars_all_digits i ':' hc) (by decide))]
  simp only []
  rw [show (natChars i ++ (':' :: ' ' :: '[' :: m :: ']' :: ' ' :: tail)).drop
      ((natChars i).length + 1) = ' ' :: '[' :: m :: ']' :: ' ' :: tail from by
    rw [show natChars i ++ (':' :: ' ' :: '[' :: m :: ']' :: ' ' :: tail)
        = (natChars i ++ [':']) ++ (' ' :: '[' :: m :: ']' :: ' ' :: tail) from by simp,
      show (natChars i).length + 1 = (natChars i ++ [':']).length from by
        rw [List.length_append]; rfl]
    exact List.drop_left _ _]
  rw [stripLeadCpp_space ('[' :: m :: ']' :: ' ' :: tail)
    ⟨'[', by simp, by decide⟩ (by rw [List.headD_cons]; decide) (by simp)]
  unfold parseTaskBracket
  simp only []
  rw [if_pos (by decide)]
  rw [show ('[' :: m :: ']' :: ' ' :: tail : Str) = ['[', m] ++ ']' :: (' ' :: tail) from rfl]
  rw [findCharIdx_append ']' ['[', m] (' ' :: tail) (by
    intro hmm
    simp only [List.mem_cons, List.not_mem_nil, or_false] at hmm
    rcases hmm with hmm | hmm
    · exact absurd hmm (by decide)
    · exact hm hmm.symm)]
  simp only []
  rw [show (['[', m] ++ ']' :: (' ' :: tail)).drop ((['[', m] : Str).length + 1)
      = ' ' :: tail from rfl]
  rw [stripLeadCpp_space tail (by
    obtain ⟨t0, ttl, rfl⟩ : ∃ t0 ttl, tail = t0 :: ttl := by
      cases tail with
      | nil => exact absurd rfl htail_ne
      | cons a b => exact ⟨a, b, rfl⟩
    exact ⟨t0, by simp, by simpa using htail_head⟩) htail_head htail_ne]

theorem parseTaskLine_save (i : Nat) (t : Task)
    (hname : goodNameB t.name = true)
    (hparent : t.parent = -1 ∨ 0 ≤ t.parent) :
    parseTaskLine (saveTaskLine i t) = t := by
  simp only [goodNameB, Bool.and_eq_true, Bool.not_eq_true'] at hname
  obtain ⟨⟨⟨⟨hne0, hnl⟩, hhead⟩, hlast⟩, hsub⟩ := hname
  have hne : t.name ≠ [] := by
    cases hn : t.name
    · rw [hn] at hne0; simp at hne0
    · simp
  obtain ⟨m, hmeq, hmval⟩ :
      ∃ m, (if t.done then (['x'] : Str) else [' ']) = [m]
        ∧ (m == 'x' || m == 'X') = t.done := by
    cases hdn : t.done
    · exact ⟨' ', rfl, by decide⟩
    · exact ⟨'x', rfl, by decide⟩
  have hm2 : m = 'x' ∨ m = ' ' := by
    cases hdn : t.done <;> rw [hdn] at hmeq <;> simp at hmeq
    · exact Or.inr hmeq.symm
    · exact Or.inl hmeq.symm
  have hmne : m ≠ ']' := by
    rcases hm2 with rfl | rfl <;> decide
  rcases hparent with hp | hp
  · have hshape : saveTaskLine i t
        = natChars i ++ (':' :: ' ' :: '[' :: m :: ']' :: ' ' :: t.name) := by
      unfold saveTaskLine
      rw [hmeq, if_neg (by simp [hp])]
      simp only [List.append_assoc, List.append_nil]
      rfl
    rw [hshape, parseTask_front i m t.name hmne hne hhead]
    rw [parseTaskParent_noparent t.name hsub]
    rw [hmval, ← hp]
  · have hic : intChars t.parent = natChars t.parent.toNat := by
      unfold intChars
      rw [if_neg (by omega)]
    have hshape : saveTaskLine i t
        = natChars i ++ (':' :: ' ' :: '[' :: m :: ']' :: ' '
            :: (t.name ++ (' ' :: (str "(parent=" ++ (natChars t.parent.toNat ++ [')']))))) := by
      unfold saveTaskLine
      rw [hmeq, if_pos (by simp only [bne_iff_ne, ne_eq, decide_eq_true_eq]; omega), hic]
      rw [show str " (parent=" = ' ' :: str "(parent=" from rfl]
      simp only [List.append_assoc]
      rfl
    obtain ⟨n0, ntl, hn0⟩ : ∃ n0 ntl, t.name = n0 :: ntl := by
      cases hn : t.name
      · exact absurd hn hne
      · exact ⟨_, _, rfl⟩
    rw [hshape, parseTask_front i m _ hmne (by simp [hn0]) (by
      rw [hn0]
      simpa [List.headD] using (by rwa [hn0] at hhead))]
    rw [parseTaskParent_parent t.name t.parent.toNat hsub hne hlast]
    rw [hmval, show ((t.parent.toNat : Nat) : Int) = t.parent from Int.toNat_of_nonneg hp]

theorem intChars_mem (p : Int) (c : Char) (hc : c ∈ intChars p) :
    c = '-' ∨ isDigitChar c = true := by
  unfold intChars at hc
  by_cases hp : p < 0
  · rw [if_pos hp] at hc
    rcases List.mem_cons.mp hc with rfl | hc
    · exact Or.inl rfl
    · exact Or.inr (natChars_all_digits _ c hc)
  · rw [if_neg hp] at hc
    exact Or.inr (natChars_all_digits _ c hc)

theorem saveTaskLine_no_newline (i : Nat) (t : Task)
    (hnl : t.name.contains '\n' = false) : '\n' ∉ saveTaskLine i t := by
  intro hm
  unfold saveTaskLine at hm
  simp only [List.append_assoc, List.mem_append] at hm
  rcases hm with hm | hm | hm | hm | hm | hm
  · exact absurd (natChars_all_digits i '\n' hm) (by decide)
  · revert hm; decide
  · revert hm; cases t.done <;> decide
  · revert hm; decide
  · have : t.name.contains '\n' = true := List.elem_eq_true_of_mem hm
    rw [hnl] at this
    exact absurd this (by decide)
  · by_cases hp : t.parent != -1
    · rw [if_pos hp] at hm
      simp only [List.append_assoc, List.mem_append] at hm
      rcases hm with hm | hm | hm
      · revert hm; decide
      · rcases intChars_mem t.parent '\n' hm with h | h
        · exact absurd h (by decide)
        · exact absurd h (by decide)
      · revert hm; decide
    · rw [if_neg hp] at hm
      simp at hm

theorem saveTaskLine_ne_nil (i : Nat) (t : Task) :
    (saveTaskLine i t).isEmpty = false := by
  unfold saveTaskLine
  cases hn : natChars i with
  | nil => exact absurd hn (natChars_ne_nil i)
  | cons c r => rfl

theorem load_saveTasksLines : ∀ (ts : List Task) (i : Nat),
    (∀ t ∈ ts, goodNameB t.name = true ∧ (t.parent = -1 ∨ 0 ≤ t.parent)) →
    load_tasks (((saveTasksLines i ts).map (· ++ ['\n'])).flatten) = ts := by
  intro ts
  induction ts with
  | nil => intro i _; rfl
  | cons t ts ih =>
    intro i h
    have ht := h t (by simp)
    have hrest : ∀ u ∈ ts, goodNameB u.name = true ∧ (u.parent = -1 ∨ 0 ≤ u.parent) :=
      fun u hu => h u (by simp [hu])
    have hnl : t.name.contains '\n' = false := by
      have hg := ht.1
      simp only [goodNameB, Bool.and_eq_true, Bool.not_eq_true'] at hg
      exact hg.1.1.1.2
    rw [show ((saveTasksLines i (t :: ts)).map (· ++ ['\n'])).flatten
        = saveTaskLine i t
            ++ '\n' :: ((saveTasksLines (i + 1) ts).map (· ++ ['\n'])).flatten from by
      simp [saveTasksLines, List.append_assoc]]
    unfold load_tasks
    rw [getLines_cons_line _ _ (saveTaskLine_no_newline i t hnl)]
    have hsome : (fun line => if line.isEmpty then none else some (parseTaskLine line))
        (saveTaskLine i t) = some (parseTaskLine (saveTaskLine i t)) := by
      simp only [saveTaskLine_ne_nil i t]
      rfl
    rw [show List.filterMap
          (fun line => if line.isEmpty then none else some (parseTaskLine line))
          (saveTaskLine i t
            :: getLines (((saveTasksLines (i + 1) ts).map (· ++ ['\n'])).flatten))
        = parseTaskLine (saveTaskLine i t)
            :: List.filterMap
              (fun line => if line.isEmpty then none else some (parseTaskLine line))
              (getLines (((saveTasksLines (i + 1) ts).map (· ++ ['\n'])).flatten))
      from List.filterMap_cons_some hsome]
    rw [parseTaskLine_save i t ht.1 ht.2]
    have htail := ih (i + 1) hrest
    unfold load_tasks at htail
    rw [htail]

theorem setDone_mem : ∀ (l : List Task) (i : Nat) (v : Bool) (t : Task),
    t ∈ setDone l i v → ∃ u ∈ l, t.name = u.name ∧ t.parent = u.parent := by
  intro l
  induction l with
  | nil => intro i v t h; simp [setDone] at h
  | cons a l ih =>
    intro i v t h
    cases i with
    | zero =>
      simp only [setDone] at h
      rcases List.mem_cons.mp h with rfl | h
      · exact ⟨a, by simp, rfl, rfl⟩
      · exact ⟨t, by simp [h], rfl, rfl⟩
    | succ j =>
      simp only [setDone] at h
      rcases List.mem_cons.mp h with rfl | h
      · exact ⟨t, by simp, rfl, rfl⟩
      · obtain ⟨u, hu, h1, h2⟩ := ih j v t h
        exact ⟨u, by simp [hu], h1, h2⟩

theorem setDone_length : ∀ (l : List Task) (i : Nat) (v : Bool),
    (setDone l i v).length = l.length := by
  intro l
  induction l with
  | nil => intro i v; rfl
  | cons a l ih =>
    intro i v
    cases i with
    | zero => rfl
    | succ j => simp only [setDone, List.length_cons, ih]

theorem taskStep_tasks_add (now : Int) (s : AppState) (n : Str) (p : Int) :
    (taskStep now s (.addOp n p)).tasks = s.tasks ++ [⟨n, p, false⟩] := rfl

theorem taskStep_tasks_toggle (now : Int) (s : AppState) (i : Nat) (v : Bool) :
    (taskStep now s (.toggleOp i v)).tasks = setDone s.tasks i v := rfl

theorem runTasks_good (now : Int) : ∀ (ops : List TaskOp) (s : AppState),
    forestOpsB s.tasks.length ops = true →
    ops.all opNameOk = true →
    (∀ t ∈ s.tasks, goodNameB t.name = true ∧ (t.parent = -1 ∨ 0 ≤ t.parent)) →
    ∀ t ∈ (runTasks now s ops).tasks,
      goodNameB t.name = true ∧ (t.parent = -1 ∨ 0 ≤ t.parent) := by
  intro ops
  induction ops with
  | nil => intro s _ _ hs; exact hs
  | cons op rest ih =>
    intro s hforest hnames hs
    rw [show runTasks now s (op :: rest) = runTasks now (taskStep now s op) rest from rfl]
    cases op with
    | addOp n p =>
      simp only [forestOpsB, Bool.and_eq_true] at hforest
      simp only [List.all_cons, Bool.and_eq_true] at hnames
      refine ih (taskStep now s (.addOp n p)) ?_ hnames.2 ?_
      · rw [show (taskStep now s (.addOp n p)).tasks.length = s.tasks.length + 1 from by
          rw [taskStep_tasks_add]; simp]
        exact hforest.2
      · intro t ht
        rw [taskStep_tasks_add] at ht
        rcases List.mem_append.mp ht with ht | ht
        · exact hs t ht
        · have heq : t = ⟨n, p, false⟩ := by simpa using ht
          subst heq
          refine ⟨hnames.1, ?_⟩
          by_cases hpe : p = -1
          · exact Or.inl hpe
          · refine Or.inr ?_
            have h1 := hforest.1
            rw [show (p == -1 : Bool) = false from beq_eq_false_iff_ne.mpr hpe] at h1
            simp only [Bool.false_or, Bool.and_eq_true, decide_eq_true_eq] at h1
            exact h1.1
    | toggleOp i v =>
      simp only [forestOpsB] at hforest
      simp only [List.all_cons, Bool.and_eq_true] at hnames
      refine ih (taskStep now s (.toggleOp i v)) ?_ hnames.2 ?_
      · rw [taskStep_tasks_toggle, setDone_length]
        exact hforest
      · intro t ht
        rw [taskStep_tasks_toggle] at ht
        obtain ⟨u, hu, h1, h2⟩ := setDone_mem s.tasks i v t ht
        have hgu := hs u hu
        exact ⟨by rw [h1]; exact hgu.1, by rw [h2]; exact hgu.2⟩

/-- **C2.** For every sequence of task `Append(name, parentIndex)` /
`Toggle(index, done)` operations whose parent indices form a forest
(`forestOpsB`) and whose appended names fit the one-line task format
(`goodNameB`: nonempty, no newline, no leading blank, no trailing
whitespace, no embedded `"(parent="`), saving the resulting task list
with `save_tasks` and loading it back with `load_tasks` reproduces
exactly the same ordered `(name, parentIndex, done)` tuples.  The
name restriction is necessary: see the counterexample with a
leading-space name. -/
theorem C2_task_roundtrip (now : Int) (ops : List TaskOp)
    (hforest : forestOpsB 0 ops = true)
    (hnames : ops.all opNameOk = true) :
    load_tasks (save_tasks_content (runTasks now initState ops).tasks)
      = (runTasks now initState ops).tasks := by
  have hgood := runTasks_good now ops initState hforest hnames
    (by intro t ht; simp [initState] at ht)
  unfold save_tasks_content
  exact load_saveTasksLines _ 0 hgood

/-- A single `Append` whose name starts with a blank satisfies the
forest condition, yet save-then-load strips the blank: the round-trip
fails for arbitrary names. -/
theorem C2_counterexample_leading_space :
    forestOpsB 0 [TaskOp.addOp (str " x") (-1)] = true ∧
    load_tasks (save_tasks_content
        (runTasks 0 initState [TaskOp.addOp (str " x") (-1)]).tasks)
      ≠ (runTasks 0 initState [TaskOp.addOp (str " x") (-1)]).tasks := by
  constructor
  · decide
  · decide

theorem C2_witness :
    load_tasks (save_tasks_content (runTasks 5 initState
        [TaskOp.addOp (str "alpha") (-1), TaskOp.addOp (str "beta") 0,
         TaskOp.toggleOp 1 true]).tasks)
      = (runTasks 5 initState
        [TaskOp.addOp (str "alpha") (-1), TaskOp.addOp (str "beta") 0,
         TaskOp.toggleOp 1 true]).tasks :=
  C2_task_roundtrip 5
    [TaskOp.addOp (str "alpha") (-1), TaskOp.addOp (str "beta") 0,
     TaskOp.toggleOp 1 true] (by decide) (by decide)

end ProdTracker
